import Mathlib

/-!
Verification of the recommendation engine of the RCM_System repository.

The Python source is shallowly embedded: product documents become a
`Product` structure, MongoDB query results become filtered/sorted lists,
floating point scores become exact rationals (`ℚ`), and Python's stable
`sorted(..., reverse=True)` becomes the stable insertion sort `sortDescBy`.
Exception handlers that return a default value are embedded as total
functions returning that default.  The NMF factor matrices and the TF-IDF
vectors are opaque to every claim under scrutiny, so the dot products
`user_features[u] @ product_features[:, p]` and the cosine similarities are
embedded as abstract score functions carried by the model state.
-/

namespace RCM

/-! ## Stable descending sort

Python's `sorted(xs, key=k, reverse=True)` and `list.sort(key=k, reverse=True)`
are stable: elements with equal keys keep their input order.  A stable sort is
uniquely determined by this property, so we embed it as a stable insertion
sort parameterised by the key. -/

variable {α : Type} {K : Type} [LinearOrder K]

/-- Insert `x` into a descending-sorted list, after every element whose key is
strictly larger and before everything else (so that, with `sortDescBy` below,
ties keep their input order). -/
def insertDescBy (key : α → K) (x : α) : List α → List α
  | [] => [x]
  | y :: ys => if key x < key y then y :: insertDescBy key x ys else x :: y :: ys

/-- Stable sort, descending by `key`.  Embeds Python's
`sorted(..., key=key, reverse=True)`. -/
def sortDescBy (key : α → K) : List α → List α
  | [] => []
  | x :: xs => insertDescBy key x (sortDescBy key xs)

theorem insertDescBy_perm (key : α → K) (x : α) (l : List α) :
    List.Perm (insertDescBy key x l) (x :: l) := by
  induction l with
  | nil => simp [insertDescBy]
  | cons y ys ih =>
    by_cases h : key x < key y
    · simpa [insertDescBy, h] using ((ih.cons y).trans (List.Perm.swap x y ys))
    · simp [insertDescBy, h]

theorem sortDescBy_perm (key : α → K) (l : List α) : List.Perm (sortDescBy key l) l := by
  induction l with
  | nil => simp [sortDescBy]
  | cons x xs ih => exact (insertDescBy_perm key x (sortDescBy key xs)).trans (ih.cons x)

theorem mem_sortDescBy {key : α → K} {x : α} {l : List α} :
    x ∈ sortDescBy key l ↔ x ∈ l := (sortDescBy_perm key l).mem_iff

theorem insertDescBy_pairwise {key : α → K} {x : α} {l : List α}
    (h : l.Pairwise (fun a b => key b ≤ key a)) :
    (insertDescBy key x l).Pairwise (fun a b => key b ≤ key a) := by
  induction l with
  | nil => simp [insertDescBy]
  | cons y ys ih =>
    rcases List.pairwise_cons.mp h with ⟨hy, hys⟩
    by_cases hk : key x < key y
    · rw [insertDescBy, if_pos hk]
      refine List.pairwise_cons.mpr ⟨?_, ih hys⟩
      intro z hz
      rcases List.mem_cons.mp ((insertDescBy_perm key x ys).mem_iff.mp hz) with hz | hz
      · exact hz ▸ le_of_lt hk
      · exact hy z hz
    · rw [insertDescBy, if_neg hk]
      refine List.pairwise_cons.mpr ⟨?_, h⟩
      intro z hz
      rcases List.mem_cons.mp hz with hz | hz
      · exact hz ▸ le_of_not_lt hk
      · exact le_trans (hy z hz) (le_of_not_lt hk)

theorem sortDescBy_pairwise (key : α → K) (l : List α) :
    (sortDescBy key l).Pairwise (fun a b => key b ≤ key a) := by
  induction l with
  | nil => simp [sortDescBy]
  | cons x xs ih => exact insertDescBy_pairwise ih

/-- Stability: inserting into a descending-sorted list does not disturb the
elements of any fixed key class other than possibly adding the new element at
its front. -/
theorem insertDescBy_filter_eq {key : α → K} (s : K) {x : α} {l : List α}
    (h : l.Pairwise (fun a b => key b ≤ key a)) :
    (insertDescBy key x l).filter (fun a => decide (key a = s)) =
      if key x = s then x :: l.filter (fun a => decide (key a = s))
      else l.filter (fun a => decide (key a = s)) := by
  induction l with
  | nil =>
    by_cases hx : key x = s <;> simp [insertDescBy, hx]
  | cons y ys ih =>
    rcases List.pairwise_cons.mp h with ⟨hy, hys⟩
    by_cases hk : key x < key y
    · rw [insertDescBy, if_pos hk]
      by_cases hcy : key y = s
      · have hxs : ¬ key x = s := by
          intro hxx; exact absurd (hxx.trans hcy.symm) (ne_of_lt hk)
        rw [List.filter_cons_of_pos (by simpa using hcy), ih hys, if_neg hxs,
          if_neg hxs, List.filter_cons_of_pos (by simpa using hcy)]
      · rw [List.filter_cons_of_neg (by simpa using hcy), ih hys]
        by_cases hxs : key x = s
        · rw [if_pos hxs, if_pos hxs, List.filter_cons_of_neg (by simpa using hcy)]
        · rw [if_neg hxs, if_neg hxs, List.filter_cons_of_neg (by simpa using hcy)]
    · rw [insertDescBy, if_neg hk]
      by_cases hxs : key x = s
      · rw [if_pos hxs, List.filter_cons_of_pos (by simpa using hxs)]
      · rw [if_neg hxs, List.filter_cons_of_neg (by simpa using hxs)]

/-- Stability of the sort: every key class of the output lists exactly the
input's members of that class, in input order. -/
theorem sortDescBy_filter_eq (key : α → K) (s : K) (l : List α) :
    (sortDescBy key l).filter (fun a => decide (key a = s)) =
      l.filter (fun a => decide (key a = s)) := by
  induction l with
  | nil => simp [sortDescBy]
  | cons x xs ih =>
    rw [sortDescBy, insertDescBy_filter_eq s (sortDescBy_pairwise key xs), ih]
    by_cases hxs : key x = s
    · rw [if_pos hxs, List.filter_cons_of_pos (by simpa using hxs)]
    · rw [if_neg hxs, List.filter_cons_of_neg (by simpa using hxs)]

/-- Two stable descending passes (secondary key first) give the usual
lexicographic compound sort: this is how the MongoDB sort
`[(k₁, -1), (k₂, -1)]` is embedded. -/
theorem insertDescBy_pairwise_lex {k₁ k₂ : α → K} {x : α} {l : List α}
    (h : l.Pairwise (fun a b => k₁ b < k₁ a ∨ (k₁ b = k₁ a ∧ k₂ b ≤ k₂ a)))
    (hx : ∀ z ∈ l, k₂ z ≤ k₂ x) :
    (insertDescBy k₁ x l).Pairwise
      (fun a b => k₁ b < k₁ a ∨ (k₁ b = k₁ a ∧ k₂ b ≤ k₂ a)) := by
  induction l with
  | nil => simp [insertDescBy]
  | cons y ys ih =>
    rcases List.pairwise_cons.mp h with ⟨hy, hys⟩
    by_cases hk : k₁ x < k₁ y
    · rw [insertDescBy, if_pos hk]
      refine List.pairwise_cons.mpr ⟨?_, ih hys (fun z hz => hx z (List.mem_cons_of_mem y hz))⟩
      intro z hz
      rcases List.mem_cons.mp ((insertDescBy_perm k₁ x ys).mem_iff.mp hz) with hz | hz
      · exact hz ▸ Or.inl hk
      · exact hy z hz
    · rw [insertDescBy, if_neg hk]
      refine List.pairwise_cons.mpr ⟨?_, h⟩
      intro z hz
      rcases List.mem_cons.mp hz with hz | hz
      · subst hz
        rcases lt_or_eq_of_le (le_of_not_lt hk) with hlt | heq
        · exact Or.inl hlt
        · exact Or.inr ⟨heq, hx z (List.mem_cons_self z ys)⟩
      · rcases hy z hz with hlt | ⟨heq, hle⟩
        · exact Or.inl (lt_of_lt_of_le hlt (le_of_not_lt hk))
        · rcases lt_or_eq_of_le (le_of_not_lt hk) with hlt' | heq'
          · exact Or.inl (heq ▸ hlt')
          · exact Or.inr ⟨heq.trans heq', le_trans hle (hx y (List.mem_cons_self y ys))⟩

theorem sortTwoDesc_pairwise (k₁ k₂ : α → K) (l : List α)
    (h : l.Pairwise (fun a b => k₂ b ≤ k₂ a)) :
    (sortDescBy k₁ l).Pairwise
      (fun a b => k₁ b < k₁ a ∨ (k₁ b = k₁ a ∧ k₂ b ≤ k₂ a)) := by
  induction l with
  | nil => simp [sortDescBy]
  | cons x xs ih =>
    rcases List.pairwise_cons.mp h with ⟨hx, hxs⟩
    refine insertDescBy_pairwise_lex (ih hxs) ?_
    intro z hz
    exact hx z ((sortDescBy_perm k₁ xs).mem_iff.mp hz)

/-! ## Min/max over rational score lists

Embeds Python's builtin `min(values)` / `max(values)` on a non-empty list
(the `[]` case is arbitrary; `_normalize_scores` returns before reaching it
on an empty dict). -/

def listMin : List ℚ → ℚ
  | [] => 0
  | x :: xs => xs.foldl min x

def listMax : List ℚ → ℚ
  | [] => 0
  | x :: xs => xs.foldl max x

theorem foldl_min_le_init (xs : List ℚ) : ∀ a : ℚ, xs.foldl min a ≤ a := by
  induction xs with
  | nil => intro a; simp
  | cons x xs ih =>
    intro a
    calc (x :: xs).foldl min a = xs.foldl min (min a x) := rfl
    _ ≤ min a x := ih (min a x)
    _ ≤ a := min_le_left a x

theorem foldl_min_le_mem {xs : List ℚ} {y : ℚ} (hy : y ∈ xs) :
    ∀ a : ℚ, xs.foldl min a ≤ y := by
  induction xs with
  | nil => cases hy
  | cons x xs ih =>
    intro a
    rcases List.mem_cons.mp hy with h | h
    · subst h
      exact le_trans (foldl_min_le_init xs (min a y)) (min_le_right a y)
    · exact ih h (min a x)

theorem foldl_min_mem (xs : List ℚ) : ∀ a : ℚ, xs.foldl min a = a ∨ xs.foldl min a ∈ xs := by
  induction xs with
  | nil => intro a; exact Or.inl rfl
  | cons x xs ih =>
    intro a
    rcases ih (min a x) with h | h
    · rcases min_choice a x with hm | hm
      · exact Or.inl (h.trans hm)
      · refine Or.inr ?_
        rw [show (x :: xs).foldl min a = xs.foldl min (min a x) from rfl, h, hm]
        exact List.mem_cons_self x xs
    · exact Or.inr (List.mem_cons_of_mem x h)

theorem le_foldl_max_init (xs : List ℚ) : ∀ a : ℚ, a ≤ xs.foldl max a := by
  induction xs with
  | nil => intro a; simp
  | cons x xs ih =>
    intro a
    calc a ≤ max a x := le_max_left a x
    _ ≤ xs.foldl max (max a x) := ih (max a x)
    _ = (x :: xs).foldl max a := rfl

theorem le_foldl_max_mem {xs : List ℚ} {y : ℚ} (hy : y ∈ xs) :
    ∀ a : ℚ, y ≤ xs.foldl max a := by
  induction xs with
  | nil => cases hy
  | cons x xs ih =>
    intro a
    rcases List.mem_cons.mp hy with h | h
    · subst h
      exact le_trans (le_max_right a y) (le_foldl_max_init xs (max a y))
    · exact ih h (max a x)

theorem foldl_max_mem (xs : List ℚ) : ∀ a : ℚ, xs.foldl max a = a ∨ xs.foldl max a ∈ xs := by
  induction xs with
  | nil => intro a; exact Or.inl rfl
  | cons x xs ih =>
    intro a
    rcases ih (max a x) with h | h
    · rcases max_choice a x with hm | hm
      · exact Or.inl (h.trans hm)
      · refine Or.inr ?_
        rw [show (x :: xs).foldl max a = xs.foldl max (max a x) from rfl, h, hm]
        exact List.mem_cons_self x xs
    · exact Or.inr (List.mem_cons_of_mem x h)

theorem listMin_le {l : List ℚ} {y : ℚ} (hy : y ∈ l) : listMin l ≤ y := by
  cases l with
  | nil => cases hy
  | cons x xs =>
    rcases List.mem_cons.mp hy with h | h
    · exact h ▸ foldl_min_le_init xs x
    · exact foldl_min_le_mem h x

theorem le_listMax {l : List ℚ} {y : ℚ} (hy : y ∈ l) : y ≤ listMax l := by
  cases l with
  | nil => cases hy
  | cons x xs =>
    rcases List.mem_cons.mp hy with h | h
    · exact h ▸ le_foldl_max_init xs x
    · exact le_foldl_max_mem h x

theorem listMin_mem {l : List ℚ} (h : l ≠ []) : listMin l ∈ l := by
  cases l with
  | nil => exact absurd rfl h
  | cons x xs =>
    rcases foldl_min_mem xs x with hm | hm
    · rw [show listMin (x :: xs) = xs.foldl min x from rfl, hm]
      exact List.mem_cons_self x xs
    · exact List.mem_cons_of_mem x hm

theorem listMax_mem {l : List ℚ} (h : l ≠ []) : listMax l ∈ l := by
  cases l with
  | nil => exact absurd rfl h
  | cons x xs =>
    rcases foldl_max_mem xs x with hm | hm
    · rw [show listMax (x :: xs) = xs.foldl max x from rfl, hm]
      exact List.mem_cons_self x xs
    · exact List.mem_cons_of_mem x hm

theorem allEq_iff_listMax_eq_listMin {l : List ℚ} (h : l ≠ []) :
    (∀ x ∈ l, ∀ y ∈ l, x = y) ↔ listMax l = listMin l := by
  constructor
  · intro hall
    exact hall _ (listMax_mem h) _ (listMin_mem h)
  · intro heq x hx y hy
    have h1 : x ≤ listMax l := le_listMax hx
    have h2 : listMin l ≤ x := listMin_le hx
    have h3 : y ≤ listMax l := le_listMax hy
    have h4 : listMin l ≤ y := listMin_le hy
    have hxm : x = listMin l := le_antisymm (heq ▸ h1) h2 |>.symm ▸ rfl
    calc x = listMin l := le_antisymm (heq ▸ h1) h2
    _ = y := (le_antisymm (heq ▸ h3) h4).symm

/-! ## Hybrid score normalization

`HybridRecommendationStrategy._normalize_scores` (src/app/services/hybrid.py
lines 129-144).  Python dicts preserve insertion order, so a score dict is
embedded as an association list. -/

def normalizeScores (scores : List (String × ℚ)) : List (String × ℚ) :=
  if scores.isEmpty then []
  else
    let vals := scores.map (fun kv => kv.2)
    let mn := listMin vals
    let mx := listMax vals
    if mx = mn then scores.map (fun kv => (kv.1, if 0 < kv.2 then (1 : ℚ) else 0))
    else scores.map (fun kv => (kv.1, (kv.2 - mn) / (mx - mn)))

/-! ## Comment sentiment and rating contribution

`CollaborativeFilteringStrategy._analyze_sentiment` (lines 195-206) and the
rating contribution of `_prepare_interaction_matrix` (lines 159-164). -/

/-- Python substring test `needle in hay`. -/
def containsSeq (needle : List Char) : List Char → Bool
  | [] => needle.isEmpty
  | c :: t => needle.isPrefixOf (c :: t) || containsSeq needle t

def positiveWords : List String :=
  ["tốt", "ngon", "tuyệt", "xuất sắc", "hài lòng", "thích", "đẹp", "chất lượng"]

def negativeWords : List String :=
  ["tệ", "dở", "kém", "không ngon", "tồi", "không thích", "xấu"]

/-- `_analyze_sentiment`: number of positive lexicon words occurring in the
lowercased comment minus the number of negative ones (each lexicon word
counted once; an empty comment scores 0). -/
def analyzeSentiment (comment : String) : Int :=
  if comment = "" then 0
  else
    let lowered := comment.data.map Char.toLower
    let pos := positiveWords.countP (fun w => containsSeq w.data lowered)
    let neg := negativeWords.countP (fun w => containsSeq w.data lowered)
    (pos : Int) - (neg : Int)

/-- The contribution of one rating record to its interaction-matrix cell:
`max(rating_value * 0.6 + sentiment * 0.4, 0)` — the clip is applied to the
whole weighted sum (lines 163-164). -/
def ratingContribution (rating : ℚ) (comment : String) : ℚ :=
  max (rating * (6/10) + (analyzeSentiment comment : ℚ) * (4/10)) 0

/-- Modelled from the claim''s words (C5): the sentiment term alone clipped
at 0, so that negative sentiment could never reduce the contribution below
`rating * 0.6`.  For comparison against `ratingContribution`. -/
def claimedRatingContribution (rating : ℚ) (comment : String) : ℚ :=
  rating * (6/10) + max ((analyzeSentiment comment : ℚ)) 0 * (4/10)

/-! ## Claims C3 and C5 -/

/-- C3 (amended): for every non-empty score mapping, when the raw scores are
not all equal every normalized score lies in [0,1] and at least one is
exactly 1; when all raw scores are equal, every candidate with a strictly
positive raw score maps to 1.0 and every candidate with a non-positive raw
score maps to 0.0. -/
theorem claim3_ok (scores : List (String × ℚ)) (hne : scores ≠ []) :
    (¬ (∀ x ∈ scores.map (fun kv => kv.2), ∀ y ∈ scores.map (fun kv => kv.2), x = y) →
      (∀ kv ∈ normalizeScores scores, 0 ≤ kv.2 ∧ kv.2 ≤ 1) ∧
      ∃ kv ∈ normalizeScores scores, kv.2 = 1) ∧
    ((∀ x ∈ scores.map (fun kv => kv.2), ∀ y ∈ scores.map (fun kv => kv.2), x = y) →
      normalizeScores scores =
        scores.map (fun kv => (kv.1, if 0 < kv.2 then (1 : ℚ) else 0))) := by
  have hvne : scores.map (fun kv => kv.2) ≠ [] := by
    simpa using hne
  have hie : scores.isEmpty = false := by
    simpa [List.isEmpty_iff] using hne
  constructor
  · intro hall
    have hmxmn : listMax (scores.map (fun kv => kv.2)) ≠ listMin (scores.map (fun kv => kv.2)) :=
      fun h => hall ((allEq_iff_listMax_eq_listMin hvne).mpr h)
    obtain ⟨v, hv⟩ : ∃ v, v ∈ scores.map (fun kv => kv.2) :=
      List.exists_mem_of_ne_nil _ hvne
    have hlt : listMin (scores.map (fun kv => kv.2)) < listMax (scores.map (fun kv => kv.2)) :=
      lt_of_le_of_ne (le_trans (listMin_le hv) (le_listMax hv)) (Ne.symm hmxmn)
    have hpos : 0 < listMax (scores.map (fun kv => kv.2)) - listMin (scores.map (fun kv => kv.2)) :=
      sub_pos.mpr hlt
    rw [normalizeScores, hie]
    simp only [Bool.false_eq_true, if_false, if_neg hmxmn]
    constructor
    · intro kv hkv
      obtain ⟨kv0, hkv0, rfl⟩ := List.mem_map.mp hkv
      have hmem : kv0.2 ∈ scores.map (fun kv => kv.2) := List.mem_map_of_mem _ hkv0
      constructor
      · exact div_nonneg (sub_nonneg.mpr (listMin_le hmem)) hpos.le
      · exact (div_le_one hpos).mpr (sub_le_sub_right (le_listMax hmem) _)
    · have hmx : listMax (scores.map (fun kv => kv.2)) ∈ scores.map (fun kv => kv.2) :=
        listMax_mem hvne
      obtain ⟨kv0, hkv0, hv0⟩ := List.mem_map.mp hmx
      refine ⟨(kv0.1, (kv0.2 - listMin (scores.map (fun kv => kv.2))) /
        (listMax (scores.map (fun kv => kv.2)) - listMin (scores.map (fun kv => kv.2)))),
        List.mem_map_of_mem _ hkv0, ?_⟩
      show (kv0.2 - _) / _ = 1
      rw [hv0]
      exact div_self hpos.ne'
  · intro hall
    have heq := (allEq_iff_listMax_eq_listMin hvne).mp hall
    rw [normalizeScores, hie]
    simp only [Bool.false_eq_true, if_false, if_pos heq]

/-- C3 witness: on raw scores a=1, b=3 the normalized score of b is in
[0,1] (it is 1). -/
theorem claim3_witness :
    (0 : ℚ) ≤ (("b", (1 : ℚ)) : String × ℚ).2 ∧ (("b", (1 : ℚ)) : String × ℚ).2 ≤ 1 := by
  have h := claim3_ok [("a", (1 : ℚ)), ("b", (3 : ℚ))] (by decide)
  refine (h.1 (by decide)).1 ("b", 1) ?_
  have : normalizeScores [("a", (1 : ℚ)), ("b", (3 : ℚ))] = [("a", 0), ("b", 1)] := by
    rw [normalizeScores]
    norm_num [listMin, listMax]
  rw [this]
  exact List.mem_cons_of_mem _ (List.mem_cons_self _ _)

/-- C3 counterexample: a mapping whose raw scores are all equal to the
non-zero value -1 is normalized to 0.0, not to 1.0 as the claim states. -/
theorem claim3_counterexample :
    normalizeScores [("a", (-1 : ℚ)), ("b", (-1 : ℚ))] = [("a", 0), ("b", 0)] ∧
    (∀ x ∈ ([("a", (-1 : ℚ)), ("b", (-1 : ℚ))]).map (fun kv => kv.2),
      ∀ y ∈ ([("a", (-1 : ℚ)), ("b", (-1 : ℚ))]).map (fun kv => kv.2), x = y) ∧
    ((-1 : ℚ) ≠ 0) :=
  ⟨by decide, by decide, by decide⟩

/-- C5 (amended): the clip is applied to the whole weighted sum, so a rating
record contributes `max(rating*0.6 + sentiment*0.4, 0)`: never negative, equal
to the claimed formula whenever the sentiment is non-negative, but at most
`rating*0.6` (possibly strictly below it) when the sentiment is negative. -/
theorem claim5_ok (r : ℚ) (c : String) (hr : 0 ≤ r) :
    0 ≤ ratingContribution r c ∧
    (0 ≤ analyzeSentiment c → ratingContribution r c = claimedRatingContribution r c) ∧
    (analyzeSentiment c < 0 → ratingContribution r c ≤ r * (6/10)) := by
  refine ⟨le_max_right _ 0, ?_, ?_⟩
  · intro hs
    have hsq : (0 : ℚ) ≤ (analyzeSentiment c : ℚ) := by exact_mod_cast hs
    rw [ratingContribution, claimedRatingContribution,
      max_eq_left (add_nonneg (mul_nonneg hr (by norm_num)) (mul_nonneg hsq (by norm_num))),
      max_eq_left hsq]
  · intro hs
    have hsq : (analyzeSentiment c : ℚ) < 0 := by exact_mod_cast hs
    rw [ratingContribution]
    have h1 : (analyzeSentiment c : ℚ) * (4/10) < 0 := mul_neg_of_neg_of_pos hsq (by norm_num)
    have h2 : (0 : ℚ) ≤ r * (6/10) := mul_nonneg hr (by norm_num)
    exact max_le (by linarith) h2

/-- C5 witness: for the comment "ngon" (sentiment 1 ≥ 0) the code''s
contribution agrees with the claimed formula. -/
theorem claim5_witness :
    ratingContribution 5 "ngon" = claimedRatingContribution 5 "ngon" :=
  (claim5_ok 5 "ngon" (by norm_num)).2.1 (by decide)

/-- C5 counterexample: rating 5 with the three-negative-word comment
"tệ dở kém" (sentiment -3) contributes max(5*0.6 - 3*0.4, 0) = 1.8, which is
strictly below rating*0.6 = 3, contradicting the claimed clipping of the
sentiment term. -/
theorem claim5_counterexample :
    ratingContribution 5 "tệ dở kém" = 9/5 ∧
    claimedRatingContribution 5 "tệ dở kém" = 3 ∧
    ratingContribution 5 "tệ dở kém" < 5 * (6/10) := by
  have h : analyzeSentiment "tệ dở kém" = -3 := by decide
  have h1 : ratingContribution 5 "tệ dở kém" = 9/5 := by
    rw [ratingContribution, h]
    rw [show ((-3 : Int) : ℚ) = -3 by norm_num]
    rw [max_eq_left (by norm_num)]
    norm_num
  refine ⟨h1, ?_, by rw [h1]; norm_num⟩
  rw [claimedRatingContribution, h]
  rw [show ((-3 : Int) : ℚ) = -3 by norm_num]
  rw [max_eq_right (by norm_num)]
  norm_num

/-! ## Interaction aggregation

`CollaborativeFilteringStrategy._prepare_interaction_matrix`
(src/app/services/collaborative_filtering.py lines 95-193).  The matrix shape
is irrelevant to the claims, so the matrix is embedded as the row-major list
of its entries.  `sorted(...)` on the user/product id sets only fixes the
index order, which no claim depends on, so the sets are embedded as
deduplicated lists. -/

structure OrderItem where
  product : String
  quantity : Nat
deriving DecidableEq

structure OrderRec where
  userId : String
  items : List OrderItem
  synthetic : Bool
deriving DecidableEq

structure RatingRec where
  userId : String
  productId : String
  rating : ℚ
  comment : String

structure InteractionDB where
  orders : List OrderRec
  ratings : List RatingRec
  searched : String → String → Bool

/-- Users having orders or ratings (ids that are falsy, i.e. empty, are
dropped, as by `if order.get('userId')`). -/
def allUsers (db : InteractionDB) : List String :=
  (((db.orders.map (fun o => o.userId)) ++ (db.ratings.map (fun r => r.userId))).filter
    (fun u => decide (u ≠ ""))).dedup

/-- Products appearing in order lines or in ratings with a product id. -/
def allProducts (db : InteractionDB) : List String :=
  ((db.orders.flatMap (fun o => o.items.map (fun it => it.product))) ++
    ((db.ratings.filter (fun r => decide (r.productId ≠ ""))).map (fun r => r.productId))).dedup

/-- One interaction-matrix cell before global rescaling: `quantity * 2.0` per
order line, `max(rating*0.6 + sentiment*0.4, 0)` per rating, `+0.5` when the
user searched the product. -/
def entryRaw (db : InteractionDB) (u p : String) : ℚ :=
  (db.orders.foldr (fun o acc =>
      if o.userId = u then
        acc + (o.items.foldr (fun it a =>
          if it.product = p then a + (it.quantity : ℚ) * 2 else a) 0)
      else acc) 0)
  + (db.ratings.foldr (fun r acc =>
      if r.userId = u ∧ r.productId = p then acc + ratingContribution r.rating r.comment
      else acc) 0)
  + (if db.searched u p then 1/2 else 0)

def rawEntries (db : InteractionDB) : List ℚ :=
  ((allUsers db).map (fun u => (allProducts db).map (fun p => entryRaw db u p))).flatten

/-- The matrix after the final `interactions / max_val * 5.0` rescale, applied
only when the maximum entry is positive. -/
def preparedEntries (db : InteractionDB) : List ℚ :=
  if 0 < (rawEntries db).foldr max 0 then
    (rawEntries db).map (fun x => x / (rawEntries db).foldr max 0 * 5)
  else rawEntries db

theorem foldr_acc_nonneg {β : Type} {f : β → ℚ → ℚ} (hf : ∀ b acc, acc ≤ f b acc)
    (l : List β) : 0 ≤ l.foldr f 0 := by
  induction l with
  | nil => exact le_refl 0
  | cons b t ih => exact le_trans ih (hf b (t.foldr f 0))

theorem entryRaw_nonneg (db : InteractionDB) (u p : String) : 0 ≤ entryRaw db u p := by
  have h1 : 0 ≤ db.orders.foldr (fun o acc =>
      if o.userId = u then
        acc + (o.items.foldr (fun it a =>
          if it.product = p then a + (it.quantity : ℚ) * 2 else a) 0)
      else acc) 0 := by
    refine foldr_acc_nonneg ?_ _
    intro o acc
    by_cases ho : o.userId = u
    · rw [if_pos ho]
      have : 0 ≤ o.items.foldr (fun it a =>
          if it.product = p then a + (it.quantity : ℚ) * 2 else a) 0 := by
        refine foldr_acc_nonneg ?_ _
        intro it a
        by_cases hit : it.product = p
        · rw [if_pos hit]
          have : (0 : ℚ) ≤ (it.quantity : ℚ) * 2 := by positivity
          linarith
        · rw [if_neg hit]
      linarith
    · rw [if_neg ho]
  have h2 : 0 ≤ db.ratings.foldr (fun r acc =>
      if r.userId = u ∧ r.productId = p then acc + ratingContribution r.rating r.comment
      else acc) 0 := by
    refine foldr_acc_nonneg ?_ _
    intro r acc
    by_cases hr : r.userId = u ∧ r.productId = p
    · rw [if_pos hr]
      have : 0 ≤ ratingContribution r.rating r.comment := le_max_right _ 0
      linarith
    · rw [if_neg hr]
  have h3 : (0 : ℚ) ≤ if db.searched u p then 1/2 else 0 := by
    by_cases hs : db.searched u p
    · rw [if_pos hs]; norm_num
    · rw [if_neg hs]
  rw [entryRaw]
  linarith

theorem le_foldr_max {l : List ℚ} {y : ℚ} (h : y ∈ l) : y ≤ l.foldr max 0 := by
  induction l with
  | nil => cases h
  | cons a t ih =>
    rcases List.mem_cons.mp h with h | h
    · exact h ▸ le_max_left a (t.foldr max 0)
    · exact le_trans (ih h) (le_max_right a (t.foldr max 0))

theorem foldr_max_map_div_mul {l : List ℚ} {m : ℚ} (hm : 0 < m) :
    (l.map (fun x => x / m * 5)).foldr max 0 = l.foldr max 0 / m * 5 := by
  induction l with
  | nil => simp
  | cons a t ih =>
    show max (a / m * 5) ((t.map (fun x => x / m * 5)).foldr max 0) = _
    rw [ih]
    rw [show (a :: t).foldr max 0 = max a (t.foldr max 0) from rfl]
    rw [← max_div_div_right hm.le a (t.foldr max 0)]
    rw [← max_mul_of_nonneg _ _ (by norm_num : (0:ℚ) ≤ 5)]

theorem mem_rawEntries {db : InteractionDB} {x : ℚ} (hx : x ∈ rawEntries db) :
    ∃ u p, x = entryRaw db u p := by
  obtain ⟨row, hrow, hxr⟩ := List.mem_flatten.mp hx
  obtain ⟨u, _, rfl⟩ := List.mem_map.mp hrow
  obtain ⟨p, _, rfl⟩ := List.mem_map.mp hxr
  exact ⟨u, p, rfl⟩

/-- C9: every entry of the prepared interaction matrix is non-negative, and
whenever the raw matrix has a non-zero entry the rescaled matrix''s maximum
entry is exactly 5. -/
theorem claim9_ok (db : InteractionDB) :
    (∀ x ∈ preparedEntries db, 0 ≤ x) ∧
    ((∃ x ∈ rawEntries db, x ≠ 0) → (preparedEntries db).foldr max 0 = 5) := by
  have hraw : ∀ x ∈ rawEntries db, 0 ≤ x := by
    intro x hx
    obtain ⟨u, p, rfl⟩ := mem_rawEntries hx
    exact entryRaw_nonneg db u p
  constructor
  · intro x hx
    rw [preparedEntries] at hx
    by_cases hpos : 0 < (rawEntries db).foldr max 0
    · rw [if_pos hpos] at hx
      obtain ⟨y, hy, rfl⟩ := List.mem_map.mp hx
      exact mul_nonneg (div_nonneg (hraw y hy) hpos.le) (by norm_num)
    · rw [if_neg hpos] at hx
      exact hraw x hx
  · rintro ⟨x, hx, hxne⟩
    have hxpos : 0 < x := lt_of_le_of_ne (hraw x hx) (Ne.symm hxne)
    have hm : 0 < (rawEntries db).foldr max 0 := lt_of_lt_of_le hxpos (le_foldr_max hx)
    rw [preparedEntries, if_pos hm, foldr_max_map_div_mul hm, div_self hm.ne', one_mul]

/-- A one-order database used to witness C9. -/
def dbW : InteractionDB :=
  ⟨[⟨"u", [⟨"p", 1⟩], false⟩], [], fun _ _ => false⟩

/-- C9 witness: on a database with one order of one unit the raw matrix is
[2], so the rescaled maximum is exactly 5. -/
theorem claim9_witness : (preparedEntries dbW).foldr max 0 = 5 := by
  apply (claim9_ok dbW).2
  have hu : allUsers dbW = ["u"] := by decide
  have hp : allProducts dbW = ["p"] := by decide
  have h : rawEntries dbW = [entryRaw dbW "u" "p"] := by
    rw [rawEntries, hu, hp]
    rfl
  have he : entryRaw dbW "u" "p" = 2 := by
    rw [entryRaw]
    norm_num [dbW]
  refine ⟨2, ?_, by norm_num⟩
  rw [h, he]
  exact List.mem_cons_self _ _

/-! ## Product documents and the business-rules engine

`src/business_rules.py`.  A product document carries the fields the engine
and the recommender read: `_id`, `averageRating` (default 0), `totalRatings`
(default 0), `productCategory` (possibly absent) and `price` (default 0). -/

structure Product where
  id : String
  averageRating : ℚ
  totalRatings : Nat
  productCategory : Option String
  price : ℚ
deriving DecidableEq

/-- Context dict of `BusinessRulesEngine.apply_rules`; an absent key is
`none`. -/
structure RuleContext where
  viewedCategory : Option String
  priceRange : Option (ℚ × ℚ)
  favoriteCategories : Option (List String)

/-- `products_dict = {str(p['_id']): p for p in all_products}`: a Python dict
comprehension keeps the last record with a given id. -/
def dictLookup (prods : List Product) (pid : String) : Option Product :=
  prods.reverse.find? (fun p => decide (p.id = pid))

/-- The multiplicative score of `apply_rules` for one product (base 1.0,
rules 1-6 of src/business_rules.py lines 57-96). -/
def ruleScore (prod : Product) (ctx : Option RuleContext) : ℚ :=
  let score := (1 : ℚ)
  let score := if (9/2 : ℚ) ≤ prod.averageRating then score * (14/10)
    else if (4 : ℚ) ≤ prod.averageRating then score * (12/10) else score
  let score := if 10 ≤ prod.totalRatings then score * (12/10)
    else if 5 ≤ prod.totalRatings then score * (11/10) else score
  let score :=
    match ctx with
    | none => score
    | some c =>
      let score := match c.viewedCategory with
        | some vc => if prod.productCategory.getD "" = vc then score * (15/10) else score
        | none => score
      let score := match c.priceRange with
        | some pr => if pr.1 ≤ prod.price ∧ prod.price ≤ pr.2 then score * (13/10) else score
        | none => score
      match c.favoriteCategories with
      | some fav => if prod.productCategory.getD "" ∈ fav then score * (13/10) else score
      | none => score
  if prod.averageRating < 7/2 ∧ 3 ≤ prod.totalRatings then score * (1/2) else score

/-- `BusinessRulesEngine.apply_rules` (lines 26-104): score every input id
that has a product record (ids without one are skipped by `continue`), then
stable-sort descending by score and return the ids. -/
def applyRules (recs : List String) (prods : List Product) (ctx : Option RuleContext) :
    List String :=
  if recs.isEmpty then []
  else
    let scored := recs.filterMap (fun pid =>
      (dictLookup prods pid).map (fun prod => (pid, ruleScore prod ctx)))
    (sortDescBy (fun kv => kv.2) scored).map (fun kv => kv.1)

/-- The category string `diversify_recommendations` counts by:
`str(product.get('productCategory', 'unknown'))`, or `none` when the id has
no product record. -/
def catOf (prods : List Product) (pid : String) : Option String :=
  (dictLookup prods pid).map (fun p => p.productCategory.getD "unknown")

/-- The capping loop of `diversify_recommendations` (lines 122-132), with the
running `category_count` dict as a function. -/
def diversifyAux (prods : List Product) (maxPer : Nat) :
    List String → (String → Nat) → List String
  | [], _ => []
  | pid :: rest, cnt =>
    match dictLookup prods pid with
    | none => diversifyAux prods maxPer rest cnt
    | some prod =>
      let cat := prod.productCategory.getD "unknown"
      if cnt cat < maxPer then
        pid :: diversifyAux prods maxPer rest (fun c => if c = cat then cnt cat + 1 else cnt c)
      else diversifyAux prods maxPer rest cnt

/-- `BusinessRulesEngine.diversify_recommendations` (lines 106-139): cap per
category, then backfill from the remainder only when fewer than
`len(recommendations) // 2` items survived. -/
def diversifyRecommendations (recs : List String) (prods : List Product) (maxPer : Nat) :
    List String :=
  let diversified := diversifyAux prods maxPer recs (fun _ => 0)
  if diversified.length < recs.length / 2 then
    diversified ++
      (recs.filter (fun p => decide (p ∉ diversified))).take
        (recs.length - diversified.length)
  else diversified

theorem diversifyAux_sublist (prods : List Product) (maxPer : Nat) :
    ∀ (l : List String) (cnt : String → Nat), (diversifyAux prods maxPer l cnt).Sublist l := by
  intro l
  induction l with
  | nil => intro cnt; exact List.Sublist.refl []
  | cons pid rest ih =>
    intro cnt
    rw [diversifyAux]
    cases h : dictLookup prods pid with
    | none => exact (ih cnt).cons pid
    | some prod =>
      by_cases hc : cnt (prod.productCategory.getD "unknown") < maxPer
      · simp only [if_pos hc]
        exact (ih _).cons₂ pid
      · simp only [if_neg hc]
        exact (ih cnt).cons pid

theorem diversifyAux_cap (prods : List Product) (maxPer : Nat) (cat : String) :
    ∀ (l : List String) (cnt : String → Nat),
      (diversifyAux prods maxPer l cnt).countP
        (fun pid => decide (catOf prods pid = some cat)) ≤ maxPer - cnt cat := by
  intro l
  induction l with
  | nil => intro cnt; simp [diversifyAux]
  | cons pid rest ih =>
    intro cnt
    rw [diversifyAux]
    cases h : dictLookup prods pid with
    | none => exact ih cnt
    | some prod =>
      have hpidcat : catOf prods pid = some (prod.productCategory.getD "unknown") := by
        rw [catOf, h]; rfl
      by_cases hc : cnt (prod.productCategory.getD "unknown") < maxPer
      · simp only [if_pos hc]
        rw [List.countP_cons]
        by_cases hcat : prod.productCategory.getD "unknown" = cat
        · rw [hcat] at hc ⊢
          have hp : decide (catOf prods pid = some cat) = true :=
            decide_eq_true (by rw [hpidcat, hcat])
          rw [hp, if_pos rfl]
          have hx := ih (fun c => if c = cat then cnt cat + 1 else cnt c)
          rw [if_pos rfl] at hx
          omega
        · have hp : decide (catOf prods pid = some cat) = false :=
            decide_eq_false (by rw [hpidcat]; exact fun hs => hcat (Option.some.inj hs))
          rw [hp]
          simp only [Bool.false_eq_true, if_false]
          have hx := ih (fun c => if c = prod.productCategory.getD "unknown"
            then cnt (prod.productCategory.getD "unknown") + 1 else cnt c)
          rw [if_neg (fun hq => hcat hq.symm)] at hx
          omega
      · simp only [if_neg hc]
        exact ih cnt

theorem filter_mem_of_sublist :
    ∀ {l' l : List String}, l'.Sublist l → l.Nodup →
      l.filter (fun a => decide (a ∈ l')) = l' := by
  intro l' l hs
  induction hs with
  | slnil => intro _; rfl
  | @cons l' l a hs ih =>
    intro hn
    have ha : a ∉ l := (List.nodup_cons.mp hn).1
    have hal : a ∉ l' := fun h => ha (hs.subset h)
    rw [List.filter_cons_of_neg (by simpa using hal)]
    exact ih (List.nodup_cons.mp hn).2
  | @cons₂ l' l a hs ih =>
    intro hn
    have ha : a ∉ l := (List.nodup_cons.mp hn).1
    rw [List.filter_cons_of_pos (by simp)]
    have hcong : l.filter (fun x => decide (x ∈ a :: l')) = l.filter (fun x => decide (x ∈ l')) := by
      refine List.filter_congr ?_
      intro x hx
      have hxa : x ≠ a := fun hq => ha (hq ▸ hx)
      simp [List.mem_cons, hxa]
    rw [hcong, ih (List.nodup_cons.mp hn).2]

theorem length_filter_add_length_filter_neg {α : Type} (p : α → Bool) (l : List α) :
    (l.filter p).length + (l.filter (fun a => !(p a))).length = l.length := by
  induction l with
  | nil => rfl
  | cons a t ih =>
    by_cases h : p a
    · rw [List.filter_cons_of_pos h, List.filter_cons_of_neg (by simp [h])]
      simp only [List.length_cons]
      omega
    · rw [List.filter_cons_of_neg (by simpa using h),
        List.filter_cons_of_pos (by simp [h])]
      simp only [List.length_cons]
      omega

theorem length_filter_not_mem {l' l : List String} (hs : l'.Sublist l) (hn : l.Nodup) :
    (l.filter (fun a => decide (a ∉ l'))).length = l.length - l'.length := by
  have h1 := length_filter_add_length_filter_neg (fun a => decide (a ∈ l')) l
  rw [filter_mem_of_sublist hs hn] at h1
  have h2 : l.filter (fun a => decide (a ∉ l')) =
      l.filter (fun a => !(decide (a ∈ l'))) := by
    refine List.filter_congr ?_
    intro x _
    simp
  rw [h2]
  omega

/-- C7 (amended): the capping pass keeps at most `max_per_category` items of
each category, preserving rank order (it is a sublist of the input); whenever
capping keeps fewer than `⌊n/2⌋` items (the code''s `len < n // 2` test, not
"removes more than half"), the excluded remainder is backfilled in original
rank order and the output length is restored to the input length; otherwise
the capped list is returned as is. -/
theorem claim7_ok (recs : List String) (prods : List Product) (maxPer : Nat)
    (hnd : recs.Nodup) :
    (diversifyAux prods maxPer recs (fun _ => 0)).Sublist recs ∧
    (∀ cat, (diversifyAux prods maxPer recs (fun _ => 0)).countP
        (fun pid => decide (catOf prods pid = some cat)) ≤ maxPer) ∧
    ((diversifyAux prods maxPer recs (fun _ => 0)).length < recs.length / 2 →
      diversifyRecommendations recs prods maxPer =
        diversifyAux prods maxPer recs (fun _ => 0) ++
          (recs.filter (fun p => decide (p ∉ diversifyAux prods maxPer recs (fun _ => 0)))).take
            (recs.length - (diversifyAux prods maxPer recs (fun _ => 0)).length) ∧
      (diversifyRecommendations recs prods maxPer).length = recs.length) ∧
    (¬ (diversifyAux prods maxPer recs (fun _ => 0)).length < recs.length / 2 →
      diversifyRecommendations recs prods maxPer =
        diversifyAux prods maxPer recs (fun _ => 0)) := by
  have hsub := diversifyAux_sublist prods maxPer recs (fun _ => 0)
  refine ⟨hsub, ?_, ?_, ?_⟩
  · intro cat
    have := diversifyAux_cap prods maxPer cat recs (fun _ => 0)
    omega
  · intro hlt
    have heq : diversifyRecommendations recs prods maxPer =
        diversifyAux prods maxPer recs (fun _ => 0) ++
          (recs.filter (fun p => decide (p ∉ diversifyAux prods maxPer recs (fun _ => 0)))).take
            (recs.length - (diversifyAux prods maxPer recs (fun _ => 0)).length) := by
      rw [diversifyRecommendations, if_pos hlt]
    refine ⟨heq, ?_⟩
    rw [heq, List.length_append]
    have hflen := length_filter_not_mem hsub hnd
    have hsl := hsub.length_le
    rw [List.length_take, hflen]
    omega
  · intro hge
    rw [diversifyRecommendations, if_neg hge]

/-- Five same-category recommendations used for the C7 counterexample. -/
def prods7 : List Product :=
  [⟨"a", 0, 0, some "X", 0⟩, ⟨"b", 0, 0, some "X", 0⟩, ⟨"c", 0, 0, some "X", 0⟩,
   ⟨"d", 0, 0, some "X", 0⟩, ⟨"e", 0, 0, some "X", 0⟩]

def recs7 : List String := ["a", "b", "c", "d", "e"]

/-- C7 counterexample: capping five same-category items at 2 removes three of
five (more than half), yet the code does not backfill — the `len < n // 2`
test (2 < 2) fails — so the requested count is not restored. -/
theorem claim7_counterexample :
    diversifyRecommendations recs7 prods7 2 = ["a", "b"] ∧
    recs7.length = 5 ∧
    recs7.length < 2 * (recs7.length - (diversifyRecommendations recs7 prods7 2).length) ∧
    (diversifyRecommendations recs7 prods7 2).length ≠ recs7.length := by
  refine ⟨by decide, by decide, by decide, by decide⟩

/-- C7 witness: on the five same-category items the capped list keeps at most
two of category "X". -/
theorem claim7_witness :
    (diversifyAux prods7 2 recs7 (fun _ => 0)).countP
      (fun pid => decide (catOf prods7 pid = some "X")) ≤ 2 :=
  (claim7_ok recs7 prods7 2 (by decide)).2.1 "X"

/-- C10: `apply_rules` only permutes and drops: every output id comes from
the input list, every output id has a product record in the supplied catalog
(ids without one are silently dropped), and the output can be strictly
shorter than the input. -/
theorem claim10_ok (recs : List String) (prods : List Product) (ctx : Option RuleContext) :
    (∀ x ∈ applyRules recs prods ctx, x ∈ recs) ∧
    (∀ x ∈ applyRules recs prods ctx, ∃ p ∈ prods, p.id = x) ∧
    (applyRules ["a"] [] none).length < (["a"] : List String).length := by
  have hmem : ∀ x ∈ applyRules recs prods ctx,
      ∃ pid prod, pid = x ∧ pid ∈ recs ∧ dictLookup prods pid = some prod := by
    intro x hx
    rw [applyRules] at hx
    by_cases hre : recs.isEmpty
    · rw [if_pos hre] at hx
      cases hx
    · rw [if_neg hre] at hx
      obtain ⟨kv, hkv, rfl⟩ := List.mem_map.mp hx
      have hkv2 : kv ∈ recs.filterMap (fun pid =>
          (dictLookup prods pid).map (fun prod => (pid, ruleScore prod ctx))) :=
        mem_sortDescBy.mp hkv
      obtain ⟨pid, hpid, hsome⟩ := List.mem_filterMap.mp hkv2
      cases hdl : dictLookup prods pid with
      | none => rw [hdl] at hsome; cases hsome
      | some prod =>
        rw [hdl] at hsome
        have hkveq : (pid, ruleScore prod ctx) = kv := by simpa using hsome
        have : pid = kv.1 := by rw [← hkveq]
        exact ⟨pid, prod, this, hpid, hdl⟩
  refine ⟨?_, ?_, by decide⟩
  · intro x hx
    obtain ⟨pid, prod, rfl, hpid, _⟩ := hmem x hx
    exact hpid
  · intro x hx
    obtain ⟨pid, prod, rfl, hpid, hdl⟩ := hmem x hx
    have hmem2 : prod ∈ prods.reverse := List.mem_of_find?_eq_some hdl
    have hpd := List.find?_some hdl
    exact ⟨prod, List.mem_reverse.mp hmem2, of_decide_eq_true hpd⟩

/-- C10 witness: with catalog containing a record for "a", the output id "a"
is indeed drawn from the input list. -/
theorem claim10_witness : "a" ∈ (["a"] : List String) :=
  (claim10_ok ["a"] [⟨"a", 5, 0, none, 0⟩] none).1 "a" (by decide)

/-! ## The hybrid recommendation strategy

`HybridRecommendationStrategy` (src/app/services/hybrid.py) together with the
candidate-producing entry points of `CollaborativeFilteringStrategy.recommend`
(collaborative_filtering.py lines 332-372) and
`ContentBasedFilteringStrategy.recommend` (content_based.py lines 98-190).

The NMF dot product `user_features[user_idx] @ product_features[:, product_idx]`
and the TF-IDF cosine similarities are carried as abstract score functions:
no claim depends on their numeric structure, only on how the surrounding code
ranks, filters and combines them.  `np.argsort(-scores)` is embedded as the
descending sort by score (its tie order is irrelevant to every claim).

Python''s `list(set(cf + content))` iterates the set in an unspecified,
hash-seed-dependent order; the enumeration is therefore passed to
`hybridRecommend` as an explicit argument `enum`, constrained in the theorems
to be a duplicate-free enumeration of the union. -/

structure Ctx where
  currentProductId : Option String
deriving DecidableEq

structure CFState where
  ready : Bool
  knownUsers : List String
  productIndex : List String
  score : String → String → ℚ

structure ContentState where
  ready : Bool
  productIds : List String
  itemSim : String → String → ℚ
  querySim : List String → String → ℚ

structure Model where
  cf : CFState
  content : ContentState
  catalog : List Product
  searchKeywords : String → List String
  minRating : ℚ
  cfWeight : ℚ
  contentWeight : ℚ

/-- `CollaborativeFilteringStrategy.is_ready` (lines 399-407). -/
def cfIsReady (S : CFState) : Bool :=
  S.ready && !S.knownUsers.isEmpty && !S.productIndex.isEmpty

/-- `ContentBasedFilteringStrategy.is_ready` (lines 261-267). -/
def contentIsReady (C : ContentState) : Bool :=
  C.ready && !C.productIds.isEmpty

/-- `ProductRepository.find_by_id`. -/
def findById (repo : List Product) (pid : String) : Option Product :=
  repo.find? (fun p => decide (p.id = pid))

/-- The quality check both recommenders apply to a candidate:
`product and product.get('averageRating', 0) >= settings.MIN_RATING_THRESHOLD`. -/
def ratingOK (M : Model) (pid : String) : Bool :=
  match findById M.catalog pid with
  | some prod => decide (M.minRating ≤ prod.averageRating)
  | none => false

/-- `context.get('current_product_id') if context else None`, including
Python truthiness (an empty id string is falsy at every use site). -/
def currentOf (ctx : Option Ctx) : Option String :=
  match ctx with
  | none => none
  | some c =>
    match c.currentProductId with
    | none => none
    | some s => if s = "" then none else some s

/-- `CollaborativeFilteringStrategy.recommend`: rank all indexed products by
the user''s scores, skip the current product, keep quality products, stop at
`n`.  Unready strategy or unknown user yields `[]`. -/
def cfRecommend (M : Model) (u : String) (n : Nat) (ctx : Option Ctx) : List String :=
  if !cfIsReady M.cf then []
  else if !(decide (u ∈ M.cf.knownUsers)) then []
  else
    let ranked := sortDescBy (fun p => M.cf.score u p) M.cf.productIndex
    (ranked.filter (fun p =>
      (match currentOf ctx with
       | some c => decide (p ≠ c)
       | none => true) && ratingOK M p)).take n

/-- `ContentBasedFilteringStrategy._recommend_similar`. -/
def contentRecommendSimilar (M : Model) (c : String) (n : Nat) : List String :=
  if !(decide (c ∈ M.content.productIds)) then []
  else
    ((sortDescBy (fun p => M.content.itemSim c p) M.content.productIds).filter
      (fun p => decide (p ≠ c) && ratingOK M p)).take n

/-- `ContentBasedFilteringStrategy._recommend_from_search_history`: only the
top `n*2` similarity ranks are considered before the quality filter. -/
def contentRecommendSearch (M : Model) (u : String) (n : Nat) : List String :=
  let kws := M.searchKeywords u
  if kws.isEmpty then []
  else
    (((sortDescBy (fun p => M.content.querySim kws p) M.content.productIds).take (n * 2)).filter
      (fun p => ratingOK M p)).take n

/-- `ContentBasedFilteringStrategy.recommend` (lines 98-116). -/
def contentRecommend (M : Model) (u : String) (n : Nat) (ctx : Option Ctx) : List String :=
  if !contentIsReady M.content then []
  else
    match currentOf ctx with
    | some c =>
      if c ∈ M.content.productIds then contentRecommendSimilar M c n
      else contentRecommendSearch M u n
    | none => contentRecommendSearch M u n

/-- `CollaborativeFilteringStrategy.get_scores` (lines 374-397). -/
def cfGetScores (M : Model) (u : String) (pids : List String) : List (String × ℚ) :=
  if !cfIsReady M.cf || !(decide (u ∈ M.cf.knownUsers)) then pids.map (fun p => (p, (0 : ℚ)))
  else pids.map (fun p =>
    (p, if p ∈ M.cf.productIndex then M.cf.score u p else 0))

/-- `ContentBasedFilteringStrategy._score_by_search_history`. -/
def contentGetScoresSearch (M : Model) (u : String) (pids : List String) : List (String × ℚ) :=
  let kws := M.searchKeywords u
  if kws.isEmpty then pids.map (fun p => (p, (0 : ℚ)))
  else pids.map (fun p =>
    (p, if p ∈ M.content.productIds then M.content.querySim kws p else 0))

/-- `ContentBasedFilteringStrategy.get_scores` (lines 192-259). -/
def contentGetScores (M : Model) (u : String) (pids : List String) (ctx : Option Ctx) :
    List (String × ℚ) :=
  if !contentIsReady M.content then pids.map (fun p => (p, (0 : ℚ)))
  else
    match currentOf ctx with
    | some c =>
      if c ∈ M.content.productIds then
        pids.map (fun p =>
          (p, if p ∈ M.content.productIds then M.content.itemSim c p else 0))
      else contentGetScoresSearch M u pids
    | none => contentGetScoresSearch M u pids

/-- Python `dict.get(key, 0.0)` over an association list. -/
def lookupD (l : List (String × ℚ)) (p : String) : ℚ :=
  match l.find? (fun kv => decide (kv.1 = p)) with
  | some kv => kv.2
  | none => 0

/-- `HybridRecommendationStrategy._score_candidates` (hybrid.py lines 86-123):
raw scores from each ready strategy (an unready strategy contributes the empty
dict), min-max normalized, then combined with the configured weights and the
20% consensus boost when both normalized scores are positive. -/
def scoreCandidates (M : Model) (u : String) (pids : List String) (ctx : Option Ctx) :
    List (String × ℚ) :=
  let cfN := normalizeScores (if cfIsReady M.cf then cfGetScores M u pids else [])
  let coN := normalizeScores (if contentIsReady M.content then contentGetScores M u pids ctx else [])
  pids.map (fun p =>
    let c1 := lookupD cfN p
    let c2 := lookupD coN p
    (p, if 0 < c1 ∧ 0 < c2 then (M.cfWeight * c1 + M.contentWeight * c2) * (12/10)
        else M.cfWeight * c1 + M.contentWeight * c2))

/-- The per-candidate normalized collaborative-filtering score used by
`_score_candidates` (`cf_scores.get(product_id, 0.0)` after normalization). -/
def normCF (M : Model) (u : String) (pids : List String) (p : String) : ℚ :=
  lookupD (normalizeScores (if cfIsReady M.cf then cfGetScores M u pids else [])) p

/-- The per-candidate normalized content score used by `_score_candidates`. -/
def normContent (M : Model) (u : String) (pids : List String) (ctx : Option Ctx) (p : String) : ℚ :=
  lookupD (normalizeScores (if contentIsReady M.content then contentGetScores M u pids ctx else [])) p

/-- The hybrid score of one candidate, as computed on hybrid.py lines 107-121. -/
def hybridScoreOf (M : Model) (u : String) (pids : List String) (ctx : Option Ctx)
    (p : String) : ℚ :=
  if 0 < normCF M u pids p ∧ 0 < normContent M u pids ctx p then
    (M.cfWeight * normCF M u pids p + M.contentWeight * normContent M u pids ctx p) * (12/10)
  else M.cfWeight * normCF M u pids p + M.contentWeight * normContent M u pids ctx p

theorem scoreCandidates_eq (M : Model) (u : String) (pids : List String) (ctx : Option Ctx) :
    scoreCandidates M u pids ctx = pids.map (fun p => (p, hybridScoreOf M u pids ctx p)) := rfl

/-- hybrid.py lines 73-76: sort the scored dict items by score descending
(Python''s stable sort) and return the first `n` ids. -/
def rankCandidates (M : Model) (u : String) (n : Nat) (ctx : Option Ctx)
    (enum : List String) : List String :=
  ((sortDescBy (fun kv => kv.2) (scoreCandidates M u enum ctx)).take n).map (fun kv => kv.1)

/-- `ProductRepository.get_by_category`: MongoDB filter on the category plus
the compound sort `[('averageRating', -1), ('totalRatings', -1)]`, embedded as
two stable descending passes (secondary key first). -/
def getByCategory (repo : List Product) (cat : String) (lim : Nat) : List Product :=
  (sortDescBy (fun p => p.averageRating)
    (sortDescBy (fun p => (p.totalRatings : ℚ))
      (repo.filter (fun p => decide (p.productCategory = some cat))))).take lim

/-- `ProductRepository.get_popular_products`: rating floor filter plus the
same compound sort. -/
def getPopularProducts (repo : List Product) (lim : Nat) (minR : ℚ) : List Product :=
  (sortDescBy (fun p => p.averageRating)
    (sortDescBy (fun p => (p.totalRatings : ℚ))
      (repo.filter (fun p => decide (minR ≤ p.averageRating))))).take lim

/-- The category branch of `_fallback_recommendations` (hybrid.py lines
156-169): same-category products of the context item, minus the context item,
first `n`; `[]` when the product is missing or carries no category. -/
def categoryFallback (M : Model) (n : Nat) (c : String) : List String :=
  match findById M.catalog c with
  | some prod =>
    match prod.productCategory with
    | some cat =>
      (((getByCategory M.catalog cat (n + 5)).map (fun p => p.id)).filter
        (fun p => decide (p ≠ c))).take n
    | none => []
  | none => []

/-- `HybridRecommendationStrategy._fallback_recommendations` (lines 150-180):
category branch first when it yields anything, then popular products filtered
by the configured minimum rating. -/
def fallbackRecommendations (M : Model) (n : Nat) (ctx : Option Ctx) : List String :=
  let catRecs :=
    match currentOf ctx with
    | some c => categoryFallback M n c
    | none => []
  if !catRecs.isEmpty then catRecs
  else (getPopularProducts M.catalog n M.minRating).map (fun p => p.id)

/-- `HybridRecommendationStrategy.recommend` (lines 37-84).  `enum` stands for
`list(set(cf_recommendations + content_recommendations))`, whose order Python
does not determine; theorems constrain it to a duplicate-free enumeration of
the union. -/
def hybridRecommend (M : Model) (u : String) (n : Nat) (ctx : Option Ctx)
    (enum : List String) : List String :=
  let cfRecs := if cfIsReady M.cf then cfRecommend M u (n * 3) ctx else []
  let coRecs := if contentIsReady M.content then contentRecommend M u (n * 3) ctx else []
  if cfRecs.isEmpty && coRecs.isEmpty then fallbackRecommendations M n ctx
  else rankCandidates M u n ctx enum

/-! ## Candidate-exclusion and shape lemmas for the hybrid recommender -/

theorem not_mem_cfRecommend_current (M : Model) (u : String) (n : Nat) {ctx : Option Ctx}
    {c : String} (h : currentOf ctx = some c) : c ∉ cfRecommend M u n ctx := by
  intro hc
  simp only [cfRecommend] at hc
  by_cases h1 : (!cfIsReady M.cf) = true
  · rw [if_pos h1] at hc; cases hc
  · rw [if_neg h1] at hc
    by_cases h2 : (!(decide (u ∈ M.cf.knownUsers))) = true
    · rw [if_pos h2] at hc; cases hc
    · rw [if_neg h2] at hc
      have h3 := (List.mem_filter.mp (List.mem_of_mem_take hc)).2
      rw [h] at h3
      simp at h3

theorem mem_contentRecommendSimilar_ne {M : Model} {c : String} {n : Nat} {p : String}
    (hp : p ∈ contentRecommendSimilar M c n) : p ≠ c := by
  simp only [contentRecommendSimilar] at hp
  by_cases h1 : (!(decide (c ∈ M.content.productIds))) = true
  · rw [if_pos h1] at hp; cases hp
  · rw [if_neg h1] at hp
    have h2 := (List.mem_filter.mp (List.mem_of_mem_take hp)).2
    simp only [Bool.and_eq_true, decide_eq_true_eq] at h2
    exact h2.1

theorem mem_contentRecommendSearch_mem {M : Model} {u : String} {n : Nat} {p : String}
    (hp : p ∈ contentRecommendSearch M u n) : p ∈ M.content.productIds := by
  simp only [contentRecommendSearch] at hp
  by_cases h1 : (M.searchKeywords u).isEmpty = true
  · rw [if_pos h1] at hp; cases hp
  · rw [if_neg h1] at hp
    exact mem_sortDescBy.mp
      (List.mem_of_mem_take (List.mem_filter.mp (List.mem_of_mem_take hp)).1)

theorem not_mem_contentRecommend_current (M : Model) (u : String) (n : Nat) {ctx : Option Ctx}
    {c : String} (h : currentOf ctx = some c) : c ∉ contentRecommend M u n ctx := by
  intro hc
  simp only [contentRecommend, h] at hc
  by_cases h1 : (!contentIsReady M.content) = true
  · rw [if_pos h1] at hc; cases hc
  · rw [if_neg h1] at hc
    by_cases h2 : c ∈ M.content.productIds
    · rw [if_pos h2] at hc
      exact mem_contentRecommendSimilar_ne hc rfl
    · rw [if_neg h2] at hc
      exact h2 (mem_contentRecommendSearch_mem hc)

theorem map_fst_scoreCandidates (M : Model) (u : String) (pids : List String)
    (ctx : Option Ctx) :
    (scoreCandidates M u pids ctx).map (fun kv => kv.1) = pids := by
  rw [scoreCandidates_eq, List.map_map,
    show ((fun kv : String × ℚ => kv.1) ∘ fun p => (p, hybridScoreOf M u pids ctx p)) = id
      from rfl,
    List.map_id]

theorem rankCandidates_length_le (M : Model) (u : String) (n : Nat) (ctx : Option Ctx)
    (enum : List String) : (rankCandidates M u n ctx enum).length ≤ n := by
  rw [rankCandidates, List.length_map]
  exact List.length_take_le n _

theorem rankCandidates_subset {M : Model} {u : String} {n : Nat} {ctx : Option Ctx}
    {enum : List String} {x : String} (hx : x ∈ rankCandidates M u n ctx enum) : x ∈ enum := by
  rw [rankCandidates] at hx
  obtain ⟨kv, hkv, rfl⟩ := List.mem_map.mp hx
  have h2 : kv ∈ scoreCandidates M u enum ctx :=
    mem_sortDescBy.mp (List.mem_of_mem_take hkv)
  rw [scoreCandidates_eq] at h2
  obtain ⟨p, hp, rfl⟩ := List.mem_map.mp h2
  exact hp

theorem rankCandidates_nodup (M : Model) (u : String) (n : Nat) (ctx : Option Ctx)
    {enum : List String} (henum : enum.Nodup) : (rankCandidates M u n ctx enum).Nodup := by
  have hperm : List.Perm
      ((sortDescBy (fun kv => kv.2) (scoreCandidates M u enum ctx)).map (fun kv => kv.1))
      ((scoreCandidates M u enum ctx).map (fun kv => kv.1)) :=
    (sortDescBy_perm _ _).map _
  have hnd : ((sortDescBy (fun kv => kv.2) (scoreCandidates M u enum ctx)).map
      (fun kv => kv.1)).Nodup := by
    refine hperm.symm.nodup ?_
    rw [map_fst_scoreCandidates]
    exact henum
  rw [rankCandidates]
  exact List.Nodup.sublist ((List.take_sublist _ _).map _) hnd

theorem nodup_ids_filterSortTake (repo : List Product) (f : Product → Bool)
    (k1 k2 : Product → ℚ) (lim : Nat)
    (h : (repo.map (fun p => p.id)).Nodup) :
    (((sortDescBy k1 (sortDescBy k2 (repo.filter f))).take lim).map (fun p => p.id)).Nodup := by
  have h1 : ((repo.filter f).map (fun p => p.id)).Nodup :=
    List.Nodup.sublist ((List.filter_sublist repo).map _) h
  have hperm : List.Perm (sortDescBy k1 (sortDescBy k2 (repo.filter f))) (repo.filter f) :=
    (sortDescBy_perm _ _).trans (sortDescBy_perm _ _)
  have h2 : ((sortDescBy k1 (sortDescBy k2 (repo.filter f))).map (fun p => p.id)).Nodup :=
    (hperm.map _).symm.nodup h1
  exact List.Nodup.sublist ((List.take_sublist _ _).map _) h2

theorem categoryFallback_length_le (M : Model) (n : Nat) (c : String) :
    (categoryFallback M n c).length ≤ n := by
  cases hf : findById M.catalog c with
  | none => simp [categoryFallback, hf]
  | some prod =>
    cases hcat : prod.productCategory with
    | none => simp [categoryFallback, hf, hcat]
    | some cat =>
      simp only [categoryFallback, hf, hcat]
      exact List.length_take_le n _

theorem not_mem_categoryFallback (M : Model) (n : Nat) (c : String) :
    c ∉ categoryFallback M n c := by
  intro hc
  cases hf : findById M.catalog c with
  | none => simp only [categoryFallback, hf] at hc; cases hc
  | some prod =>
    cases hcat : prod.productCategory with
    | none => simp only [categoryFallback, hf, hcat] at hc; cases hc
    | some cat =>
      simp only [categoryFallback, hf, hcat] at hc
      have h2 := (List.mem_filter.mp (List.mem_of_mem_take hc)).2
      simp at h2

theorem categoryFallback_nodup (M : Model) (n : Nat) (c : String)
    (h : (M.catalog.map (fun p => p.id)).Nodup) : (categoryFallback M n c).Nodup := by
  cases hf : findById M.catalog c with
  | none => simp [categoryFallback, hf]
  | some prod =>
    cases hcat : prod.productCategory with
    | none => simp [categoryFallback, hf, hcat]
    | some cat =>
      simp only [categoryFallback, hf, hcat]
      have h1 : ((getByCategory M.catalog cat (n + 5)).map (fun p => p.id)).Nodup := by
        rw [getByCategory]
        exact nodup_ids_filterSortTake _ _ _ _ _ h
      exact List.Nodup.sublist ((List.take_sublist _ _).trans (List.filter_sublist _)) h1

theorem popular_ids_nodup (M : Model) (n : Nat)
    (h : (M.catalog.map (fun p => p.id)).Nodup) :
    ((getPopularProducts M.catalog n M.minRating).map (fun p => p.id)).Nodup := by
  rw [getPopularProducts]
  exact nodup_ids_filterSortTake _ _ _ _ _ h

theorem fallbackRecommendations_cases (M : Model) (n : Nat) (ctx : Option Ctx) :
    (∃ c, currentOf ctx = some c ∧ categoryFallback M n c ≠ [] ∧
      fallbackRecommendations M n ctx = categoryFallback M n c) ∨
    fallbackRecommendations M n ctx =
      (getPopularProducts M.catalog n M.minRating).map (fun p => p.id) := by
  rw [fallbackRecommendations]
  cases hco : currentOf ctx with
  | none => simp
  | some c =>
    by_cases hcat : (categoryFallback M n c).isEmpty = true
    · right
      have hnil : categoryFallback M n c = [] := List.isEmpty_iff.mp hcat
      simp [hnil]
    · left
      refine ⟨c, rfl, fun hq => hcat (by simp [hq]), ?_⟩
      simp only [Bool.not_eq_true] at hcat
      simp [hcat]

theorem fallback_length_le (M : Model) (n : Nat) (ctx : Option Ctx) :
    (fallbackRecommendations M n ctx).length ≤ n := by
  rcases fallbackRecommendations_cases M n ctx with ⟨c, _, _, heq⟩ | heq
  · rw [heq]; exact categoryFallback_length_le M n c
  · rw [heq, List.length_map, getPopularProducts]
    exact List.length_take_le n _

theorem fallback_nodup (M : Model) (n : Nat) (ctx : Option Ctx)
    (h : (M.catalog.map (fun p => p.id)).Nodup) : (fallbackRecommendations M n ctx).Nodup := by
  rcases fallbackRecommendations_cases M n ctx with ⟨c, _, _, heq⟩ | heq
  · rw [heq]; exact categoryFallback_nodup M n c h
  · rw [heq]; exact popular_ids_nodup M n h

/-- C1 (amended): for every user, every `n_items` and every context, and for
every duplicate-free enumeration of the strategy candidates, `recommend`
returns at most `n_items` ids with no duplicates (given distinct catalog
ids); and when the context provides a current item id, the result either
omits that id or is exactly the catalog-popularity fallback list — which may
contain it. -/
theorem claim1_ok (M : Model) (u : String) (n : Nat) (ctx : Option Ctx)
    (enum : List String)
    (hcat : (M.catalog.map (fun p => p.id)).Nodup)
    (henum : enum.Nodup)
    (hsub : ∀ p ∈ enum, p ∈ cfRecommend M u (n * 3) ctx ∨ p ∈ contentRecommend M u (n * 3) ctx) :
    (hybridRecommend M u n ctx enum).length ≤ n ∧
    (hybridRecommend M u n ctx enum).Nodup ∧
    (∀ c, currentOf ctx = some c →
      c ∉ hybridRecommend M u n ctx enum ∨
      hybridRecommend M u n ctx enum =
        (getPopularProducts M.catalog n M.minRating).map (fun p => p.id)) := by
  by_cases hb : ((if cfIsReady M.cf then cfRecommend M u (n * 3) ctx else []).isEmpty &&
      (if contentIsReady M.content then contentRecommend M u (n * 3) ctx else []).isEmpty) = true
  · have heq : hybridRecommend M u n ctx enum = fallbackRecommendations M n ctx := by
      simp only [hybridRecommend]
      rw [if_pos hb]
    rw [heq]
    refine ⟨fallback_length_le M n ctx, fallback_nodup M n ctx hcat, ?_⟩
    intro c hc
    rcases fallbackRecommendations_cases M n ctx with ⟨c', hc', _, heq'⟩ | heq'
    · left
      rw [heq']
      have hcc : c' = c := by rw [hc'] at hc; exact Option.some.inj hc
      rw [hcc]
      exact not_mem_categoryFallback M n c
    · right; exact heq'
  · have heq : hybridRecommend M u n ctx enum = rankCandidates M u n ctx enum := by
      simp only [hybridRecommend]
      rw [if_neg hb]
    rw [heq]
    refine ⟨rankCandidates_length_le M u n ctx enum, rankCandidates_nodup M u n ctx henum, ?_⟩
    intro c hc
    left
    intro hmem
    rcases hsub c (rankCandidates_subset hmem) with h2 | h2
    · exact not_mem_cfRecommend_current M u (n * 3) hc h2
    · exact not_mem_contentRecommend_current M u (n * 3) hc h2

/-- A catalog with one highly rated product "P" and both strategies unready,
so that `recommend` lands in the popularity fallback. -/
def Mc1 : Model :=
  { cf := ⟨false, [], [], fun _ _ => 0⟩
    content := ⟨false, [], fun _ _ => 0, fun _ _ => 0⟩
    catalog := [⟨"P", 5, 10, some "cat", 0⟩]
    searchKeywords := fun _ => []
    minRating := 2
    cfWeight := 1
    contentWeight := 1 }

/-- C1 counterexample: with context item "P" and both strategies unready, the
category fallback excludes "P" and comes back empty, and the popularity
fallback then returns "P" itself — `recommend` returns the context''s current
item id. -/
theorem claim1_counterexample :
    currentOf (some ⟨some "P"⟩) = some "P" ∧
    hybridRecommend Mc1 "u" 1 (some ⟨some "P"⟩) [] = ["P"] ∧
    "P" ∈ hybridRecommend Mc1 "u" 1 (some ⟨some "P"⟩) [] := by
  refine ⟨by decide, by decide, by decide⟩

/-- C1 witness: the amended theorem applied to the concrete model `Mc1`. -/
theorem claim1_witness : (hybridRecommend Mc1 "u" 1 (some ⟨some "P"⟩) []).length ≤ 1 :=
  (claim1_ok Mc1 "u" 1 (some ⟨some "P"⟩) [] (by decide) (by decide)
    (fun p hp => absurd hp (List.not_mem_nil p))).1

/-! ## Claim C2: weighted combination and consensus boost -/

theorem lookupD_cons (k : String) (v : ℚ) (l : List (String × ℚ)) (p : String) :
    lookupD ((k, v) :: l) p = if k = p then v else lookupD l p := by
  rw [lookupD]
  by_cases h : k = p
  · rw [List.find?_cons_of_pos _ (by simpa using h), if_pos h]
  · rw [List.find?_cons_of_neg _ (by simpa using h), if_neg h, lookupD]

/-- C2: each candidate''s hybrid score is the weighted sum of its normalized
scores, multiplied by the 1.2 consensus factor exactly when both normalized
scores are strictly positive; and with non-negative weights (at least one
positive) a candidate scored by both strategies is sorted strictly before an
otherwise-equal-base-score candidate scored by at most one. -/
theorem claim2_ok (M : Model) (u : String) (ctx : Option Ctx) (pids : List String)
    (hw1 : 0 ≤ M.cfWeight) (hw2 : 0 ≤ M.contentWeight)
    (hwpos : 0 < M.cfWeight ∨ 0 < M.contentWeight) :
    (∀ p ∈ pids,
      (p, hybridScoreOf M u pids ctx p) ∈ scoreCandidates M u pids ctx ∧
      hybridScoreOf M u pids ctx p =
        (if 0 < normCF M u pids p ∧ 0 < normContent M u pids ctx p then (12/10 : ℚ) else 1) *
          (M.cfWeight * normCF M u pids p + M.contentWeight * normContent M u pids ctx p)) ∧
    (∀ a b, a ∈ pids → b ∈ pids →
      0 < normCF M u pids a → 0 < normContent M u pids ctx a →
      (normCF M u pids b = 0 ∨ normContent M u pids ctx b = 0) →
      M.cfWeight * normCF M u pids a + M.contentWeight * normContent M u pids ctx a =
        M.cfWeight * normCF M u pids b + M.contentWeight * normContent M u pids ctx b →
      hybridScoreOf M u pids ctx b < hybridScoreOf M u pids ctx a ∧
      ∀ (l₁ l₂ l₃ : List (String × ℚ)) (x y : String × ℚ),
        sortDescBy (fun kv => kv.2) (scoreCandidates M u pids ctx) =
          l₁ ++ x :: l₂ ++ y :: l₃ →
        x.1 = b → y.1 = a → False) := by
  constructor
  · intro p hp
    constructor
    · rw [scoreCandidates_eq]
      exact List.mem_map_of_mem _ hp
    · rw [hybridScoreOf]
      by_cases hb : 0 < normCF M u pids p ∧ 0 < normContent M u pids ctx p
      · rw [if_pos hb, if_pos hb]; ring
      · rw [if_neg hb, if_neg hb]; ring
  · intro a b ha hb h1a h2a hzb heq
    have hfa : hybridScoreOf M u pids ctx a =
        (M.cfWeight * normCF M u pids a + M.contentWeight * normContent M u pids ctx a) *
          (12/10) := by
      rw [hybridScoreOf, if_pos ⟨h1a, h2a⟩]
    have hfb : hybridScoreOf M u pids ctx b =
        M.cfWeight * normCF M u pids b + M.contentWeight * normContent M u pids ctx b := by
      rw [hybridScoreOf, if_neg]
      rintro ⟨hb1, hb2⟩
      rcases hzb with hz | hz
      · rw [hz] at hb1; exact lt_irrefl 0 hb1
      · rw [hz] at hb2; exact lt_irrefl 0 hb2
    have hbase : 0 < M.cfWeight * normCF M u pids a +
        M.contentWeight * normContent M u pids ctx a := by
      rcases hwpos with hw | hw
      · have hx1 := mul_pos hw h1a
        have hx2 := mul_nonneg hw2 h2a.le
        linarith
      · have hx1 := mul_pos hw h2a
        have hx2 := mul_nonneg hw1 h1a.le
        linarith
    have hlt : hybridScoreOf M u pids ctx b < hybridScoreOf M u pids ctx a := by
      rw [hfa, hfb, ← heq]
      have h12 : (M.cfWeight * normCF M u pids a +
          M.contentWeight * normContent M u pids ctx a) * (12/10) =
          (M.cfWeight * normCF M u pids a + M.contentWeight * normContent M u pids ctx a) +
          (M.cfWeight * normCF M u pids a + M.contentWeight * normContent M u pids ctx a) *
            (2/10) := by ring
      rw [h12]
      have hq := mul_pos hbase (show (0 : ℚ) < 2/10 by norm_num)
      linarith
    refine ⟨hlt, ?_⟩
    intro l₁ l₂ l₃ x y hdec hxb hya
    have hpw := sortDescBy_pairwise (fun kv : String × ℚ => kv.2) (scoreCandidates M u pids ctx)
    rw [hdec] at hpw
    have hx1 : ([x] : List (String × ℚ)).Sublist (l₁ ++ x :: l₂) :=
      ((List.nil_sublist l₂).cons₂ x).trans (List.sublist_append_right l₁ (x :: l₂))
    have hy1 : ([y] : List (String × ℚ)).Sublist (y :: l₃) :=
      (List.nil_sublist l₃).cons₂ y
    have hsl : ([x, y] : List (String × ℚ)).Sublist (l₁ ++ x :: l₂ ++ y :: l₃) :=
      List.Sublist.append hx1 hy1
    have hR : y.2 ≤ x.2 :=
      (List.pairwise_cons.mp (List.Pairwise.sublist hsl hpw)).1 y (List.mem_cons_self y [])
    have hxmem : x ∈ scoreCandidates M u pids ctx := by
      refine (sortDescBy_perm (fun kv : String × ℚ => kv.2)
        (scoreCandidates M u pids ctx)).mem_iff.mp ?_
      rw [hdec]
      exact List.mem_append.mpr
        (Or.inl (List.mem_append.mpr (Or.inr (List.mem_cons_self _ _))))
    have hymem : y ∈ scoreCandidates M u pids ctx := by
      refine (sortDescBy_perm (fun kv : String × ℚ => kv.2)
        (scoreCandidates M u pids ctx)).mem_iff.mp ?_
      rw [hdec]
      exact List.mem_append.mpr (Or.inr (List.mem_cons_self _ _))
    rw [scoreCandidates_eq] at hxmem hymem
    obtain ⟨px, _, hex⟩ := List.mem_map.mp hxmem
    obtain ⟨py, _, hey⟩ := List.mem_map.mp hymem
    have hpx : px = b := by rw [← hex] at hxb; exact hxb
    have hpy : py = a := by rw [← hey] at hya; exact hya
    have hx2 : x.2 = hybridScoreOf M u pids ctx b := by
      rw [← hex, hpx]
    have hy2 : y.2 = hybridScoreOf M u pids ctx a := by
      rw [← hey, hpy]
    rw [hx2, hy2] at hR
    exact absurd hR (not_le.mpr hlt)

/-- A model in which candidate "a" is scored by both strategies, "b" by the
collaborative one only, and the unboosted bases tie at 2. -/
def M2 : Model :=
  { cf := ⟨true, ["u"], ["a", "b", "z"],
      fun _ p => if p = "a" then 1 else if p = "b" then 2 else 0⟩
    content := ⟨true, ["a", "b", "z"], fun _ _ => 0,
      fun _ p => if p = "a" then 2 else 0⟩
    catalog := [⟨"a", 5, 0, none, 0⟩, ⟨"b", 5, 0, none, 0⟩, ⟨"z", 5, 0, none, 0⟩]
    searchKeywords := fun _ => ["k"]
    minRating := 2
    cfWeight := 2
    contentWeight := 1 }

/-- C2 witness: in `M2` the consensus-boosted candidate "a" ends with a
strictly larger hybrid score than the equal-base single-strategy "b". -/
theorem claim2_witness :
    hybridScoreOf M2 "u" ["a", "b", "z"] none "b" <
      hybridScoreOf M2 "u" ["a", "b", "z"] none "a" := by
  have hcg : (if cfIsReady M2.cf then cfGetScores M2 "u" ["a", "b", "z"] else []) =
      [("a", (1 : ℚ)), ("b", 2), ("z", 0)] := by decide
  have hog : (if contentIsReady M2.content then
      contentGetScores M2 "u" ["a", "b", "z"] none else []) =
      [("a", (2 : ℚ)), ("b", 0), ("z", 0)] := by decide
  have hnc : normalizeScores [("a", (1 : ℚ)), ("b", 2), ("z", 0)] =
      [("a", 1/2), ("b", 1), ("z", 0)] := by
    rw [normalizeScores]
    norm_num [listMin, listMax]
  have hno : normalizeScores [("a", (2 : ℚ)), ("b", 0), ("z", 0)] =
      [("a", 1), ("b", 0), ("z", 0)] := by
    rw [normalizeScores]
    norm_num [listMin, listMax]
  have hca : normCF M2 "u" ["a", "b", "z"] "a" = 1/2 := by
    rw [normCF, hcg, hnc, lookupD_cons]
    norm_num
  have hcb : normCF M2 "u" ["a", "b", "z"] "b" = 1 := by
    rw [normCF, hcg, hnc, lookupD_cons, if_neg (by decide), lookupD_cons]
    norm_num
  have hoa : normContent M2 "u" ["a", "b", "z"] none "a" = 1 := by
    rw [normContent, hog, hno, lookupD_cons]
    norm_num
  have hob : normContent M2 "u" ["a", "b", "z"] none "b" = 0 := by
    rw [normContent, hog, hno, lookupD_cons, if_neg (by decide), lookupD_cons]
    norm_num
  exact ((claim2_ok M2 "u" none ["a", "b", "z"] (by norm_num [M2]) (by norm_num [M2])
      (Or.inl (by norm_num [M2]))).2 "a" "b" (by decide) (by decide)
      (by rw [hca]; norm_num) (by rw [hoa]; norm_num) (Or.inr hob)
      (by rw [hca, hcb, hoa, hob]; norm_num [M2])).1

/-! ## Claim C4: the degraded fallback path -/

theorem pairwise_lex_ratingTotal (l : List Product) (lim : Nat) :
    ((sortDescBy (fun p => p.averageRating)
      (sortDescBy (fun p => (p.totalRatings : ℚ)) l)).take lim).Pairwise
      (fun a b => b.averageRating < a.averageRating ∨
        (b.averageRating = a.averageRating ∧ b.totalRatings ≤ a.totalRatings)) := by
  have hp := sortTwoDesc_pairwise (fun p : Product => p.averageRating)
    (fun p : Product => (p.totalRatings : ℚ))
    (sortDescBy (fun p : Product => (p.totalRatings : ℚ)) l)
    (sortDescBy_pairwise _ l)
  have hp2 := List.Pairwise.sublist (List.take_sublist lim _) hp
  refine hp2.imp ?_
  rintro a b (h | ⟨h1, h2⟩)
  · exact Or.inl h
  · refine Or.inr ⟨h1, ?_⟩
    have h3 : ((b.totalRatings : ℚ)) ≤ ((a.totalRatings : ℚ)) := h2
    exact_mod_cast h3

theorem mem_getByCategory {repo : List Product} {cat : String} {lim : Nat} {p : Product}
    (hp : p ∈ getByCategory repo cat lim) : p.productCategory = some cat := by
  rw [getByCategory] at hp
  have h1 := (sortDescBy_perm (fun p : Product => p.averageRating) _).mem_iff.mp
    (List.mem_of_mem_take hp)
  have h2 := (sortDescBy_perm (fun p : Product => (p.totalRatings : ℚ)) _).mem_iff.mp h1
  exact of_decide_eq_true (List.mem_filter.mp h2).2

theorem mem_getPopularProducts {repo : List Product} {lim : Nat} {minR : ℚ} {p : Product}
    (hp : p ∈ getPopularProducts repo lim minR) : minR ≤ p.averageRating := by
  rw [getPopularProducts] at hp
  have h1 := (sortDescBy_perm (fun p : Product => p.averageRating) _).mem_iff.mp
    (List.mem_of_mem_take hp)
  have h2 := (sortDescBy_perm (fun p : Product => (p.totalRatings : ℚ)) _).mem_iff.mp h1
  exact of_decide_eq_true (List.mem_filter.mp h2).2

/-- C4 (amended): when neither strategy yields a candidate, `recommend`
delegates to the fallback (total, so it cannot raise); the category branch
never returns the context item, yields only same-category items, and both the
category list and the popularity list are sorted by rating descending then
review count descending; when the category branch yields nothing the result
is the popularity list — restricted to items whose rating is at least the
configured minimum — and when even that filtered list is empty the result is
the empty list. -/
theorem claim4_ok (M : Model) (u : String) (n : Nat) (ctx : Option Ctx) (enum : List String)
    (hcf : (if cfIsReady M.cf then cfRecommend M u (n * 3) ctx else []) = [])
    (hco : (if contentIsReady M.content then contentRecommend M u (n * 3) ctx else []) = []) :
    hybridRecommend M u n ctx enum = fallbackRecommendations M n ctx ∧
    (∀ c, c ∉ categoryFallback M n c) ∧
    (∀ cat lim, (getByCategory M.catalog cat lim).Pairwise
        (fun a b => b.averageRating < a.averageRating ∨
          (b.averageRating = a.averageRating ∧ b.totalRatings ≤ a.totalRatings)) ∧
      ∀ p ∈ getByCategory M.catalog cat lim, p.productCategory = some cat) ∧
    ((getPopularProducts M.catalog n M.minRating).Pairwise
        (fun a b => b.averageRating < a.averageRating ∨
          (b.averageRating = a.averageRating ∧ b.totalRatings ≤ a.totalRatings)) ∧
      ∀ p ∈ getPopularProducts M.catalog n M.minRating, M.minRating ≤ p.averageRating) ∧
    ((∀ c, currentOf ctx = some c → categoryFallback M n c = []) →
      hybridRecommend M u n ctx enum =
        (getPopularProducts M.catalog n M.minRating).map (fun p => p.id)) ∧
    ((∀ c, currentOf ctx = some c → categoryFallback M n c = []) →
      getPopularProducts M.catalog n M.minRating = [] →
      hybridRecommend M u n ctx enum = []) := by
  have hfb : hybridRecommend M u n ctx enum = fallbackRecommendations M n ctx := by
    simp [hybridRecommend, hcf, hco]
  have hpop : (∀ c, currentOf ctx = some c → categoryFallback M n c = []) →
      fallbackRecommendations M n ctx =
        (getPopularProducts M.catalog n M.minRating).map (fun p => p.id) := by
    intro hcatnil
    rw [fallbackRecommendations]
    cases hco2 : currentOf ctx with
    | none => simp
    | some c => simp [hcatnil c hco2]
  refine ⟨hfb, fun c => not_mem_categoryFallback M n c, ?_, ?_, ?_, ?_⟩
  · intro cat lim
    constructor
    · rw [getByCategory]
      exact pairwise_lex_ratingTotal _ lim
    · intro p hp
      exact mem_getByCategory hp
  · constructor
    · rw [getPopularProducts]
      exact pairwise_lex_ratingTotal _ n
    · intro p hp
      exact mem_getPopularProducts hp
  · intro hcatnil
    rw [hfb]
    exact hpop hcatnil
  · intro hcatnil hnil
    rw [hfb, hpop hcatnil, hnil]
    rfl

/-- Modelled from the claim''s words (C4): "catalog-wide popularity sorted by
rating descending then review count descending", with no minimum-rating
restriction.  For comparison with `getPopularProducts`, which the fallback
actually calls. -/
def claimedCatalogPopularity (repo : List Product) (lim : Nat) : List String :=
  ((sortDescBy (fun p => p.averageRating)
    (sortDescBy (fun p => (p.totalRatings : ℚ)) repo)).take lim).map (fun p => p.id)

/-- Both strategies unready over a catalog holding a single product rated 1,
below the configured minimum rating 2. -/
def Mc4 : Model :=
  { cf := ⟨false, [], [], fun _ _ => 0⟩
    content := ⟨false, [], fun _ _ => 0, fun _ _ => 0⟩
    catalog := [⟨"Q", 1, 0, none, 0⟩]
    searchKeywords := fun _ => []
    minRating := 2
    cfWeight := 1
    contentWeight := 1 }

/-- C4 counterexample: the code''s terminal fallback filters by the minimum
rating and returns the empty list, while the claim''s catalog-wide popularity
over the same catalog is non-empty. -/
theorem claim4_counterexample :
    hybridRecommend Mc4 "u" 1 none [] = [] ∧
    claimedCatalogPopularity Mc4.catalog 1 = ["Q"] ∧
    (([] : List String) ≠ ["Q"]) := by
  refine ⟨by decide, by decide, by decide⟩

/-- C4 witness: the amended theorem applied to `Mc4`; with no context item
the result is the (empty) filtered popularity list. -/
theorem claim4_witness : hybridRecommend Mc4 "u" 1 none [] =
    (getPopularProducts Mc4.catalog 1 Mc4.minRating).map (fun p => p.id) :=
  (claim4_ok Mc4 "u" 1 none [] (by decide) (by decide)).2.2.2.2.1
    (fun c hc => by cases hc)

/-! ## Claim C6: ordering of the scored path -/

/-- C6 (amended): on the scored path `recommend` returns the first `n` ids of
the stable descending sort of the scored candidates: scores are
non-increasing, and candidates with equal hybrid scores appear in the order
of the candidate enumeration `enum` (the order of `list(set(...))`), not in
catalog insertion order. -/
theorem claim6_ok (M : Model) (u : String) (n : Nat) (ctx : Option Ctx) (enum : List String)
    (h : (if cfIsReady M.cf then cfRecommend M u (n * 3) ctx else []) ≠ [] ∨
         (if contentIsReady M.content then contentRecommend M u (n * 3) ctx else []) ≠ []) :
    hybridRecommend M u n ctx enum = rankCandidates M u n ctx enum ∧
    (sortDescBy (fun kv => kv.2) (scoreCandidates M u enum ctx)).Pairwise
      (fun x y => y.2 ≤ x.2) ∧
    (∀ s : ℚ, (sortDescBy (fun kv => kv.2) (scoreCandidates M u enum ctx)).filter
        (fun kv => decide (kv.2 = s)) =
      (scoreCandidates M u enum ctx).filter (fun kv => decide (kv.2 = s))) := by
  refine ⟨?_, sortDescBy_pairwise _ _, fun s => sortDescBy_filter_eq _ s _⟩
  simp only [hybridRecommend]
  have hb : ¬ (((if cfIsReady M.cf then cfRecommend M u (n * 3) ctx else []).isEmpty &&
      (if contentIsReady M.content then contentRecommend M u (n * 3) ctx else []).isEmpty)
        = true) := by
    rcases h with h | h
    · simp [List.isEmpty_iff, h]
    · simp [List.isEmpty_iff, h]
  rw [if_neg hb]

/-- Modelled from the claim''s words (C6): ties broken by catalog insertion
order — sort by catalog index ascending first, then stable by score
descending. -/
def specCatalogTieSort (catalog : List Product) (pairs : List (String × ℚ)) :
    List (String × ℚ) :=
  sortDescBy (fun kv => kv.2)
    (sortDescBy (fun kv => -(((catalog.map (fun p => p.id)).indexOf kv.1 : Int))) pairs)

/-- The collaborative strategy is ready and scores every product equally, so
the hybrid scores of "A" and "B" tie. -/
def Mc6 : Model :=
  { cf := ⟨true, ["u"], ["A", "B"], fun _ _ => 1⟩
    content := ⟨false, [], fun _ _ => 0, fun _ _ => 0⟩
    catalog := [⟨"A", 5, 0, none, 0⟩, ⟨"B", 5, 0, none, 0⟩]
    searchKeywords := fun _ => []
    minRating := 0
    cfWeight := 1
    contentWeight := 1 }

/-- C6 counterexample: with the legitimate candidate enumeration ["B", "A"]
(a permutation of the deduplicated union) and tied scores, `recommend`
returns ["B", "A"], while the claim''s catalog-insertion tie-break demands
["A", "B"] — the tie order follows the set-enumeration order, which the
catalog does not determine. -/
theorem claim6_counterexample :
    hybridRecommend Mc6 "u" 2 none ["B", "A"] = ["B", "A"] ∧
    ((specCatalogTieSort Mc6.catalog (scoreCandidates Mc6 "u" ["B", "A"] none)).take 2).map
      (fun kv => kv.1) = ["A", "B"] ∧
    (["B", "A"] : List String) ≠ ["A", "B"] ∧
    List.Perm ["B", "A"]
      (((if cfIsReady Mc6.cf then cfRecommend Mc6 "u" (2 * 3) none else []) ++
        (if contentIsReady Mc6.content then contentRecommend Mc6 "u" (2 * 3) none else [])).dedup) := by
  have h1 : (if cfIsReady Mc6.cf then cfGetScores Mc6 "u" ["B", "A"] else []) =
      [("B", (1 : ℚ)), ("A", 1)] := by decide
  have h2 : (if contentIsReady Mc6.content then
      contentGetScores Mc6 "u" ["B", "A"] none else []) = [] := by decide
  have hsc6 : scoreCandidates Mc6 "u" ["B", "A"] none = [("B", 1), ("A", 1)] := by
    simp only [scoreCandidates, h1, h2]
    norm_num [normalizeScores, listMin, listMax, lookupD_cons, lookupD, List.find?, Mc6]
    decide
  have hA : (if cfIsReady Mc6.cf then cfRecommend Mc6 "u" (2 * 3) none else []) =
      ["A", "B"] := by decide
  have hB : (if contentIsReady Mc6.content then contentRecommend Mc6 "u" (2 * 3) none else []) =
      ([] : List String) := by decide
  refine ⟨?_, ?_, by decide, ?_⟩
  · simp only [hybridRecommend, hA, hB]
    rw [if_neg (by decide)]
    rw [rankCandidates, hsc6]
    norm_num [sortDescBy, insertDescBy]
  · rw [hsc6]
    decide
  · rw [hA, hB]
    decide

/-- C6 witness: the amended theorem applied to `Mc6` with the enumeration
["A", "B"]. -/
theorem claim6_witness :
    hybridRecommend Mc6 "u" 2 none ["A", "B"] = rankCandidates Mc6 "u" 2 none ["A", "B"] :=
  (claim6_ok Mc6 "u" 2 none ["A", "B"] (Or.inl (by decide))).1

/-! ## Claim C8: the evaluation harness

`CollaborativeFilteringStrategy.evaluate` (collaborative_filtering.py lines
274-330).  `self.recommend(user_id, n_items=10)` is the abstract `recFn`;
`user_id in self.user_to_idx` is the abstract `known`; `allOrders` stands for
the repository result already sorted by `createdAt` descending. -/

/-- `set(str(item['product']) for item in order.get('orderItems', []))`. -/
def actualItems (o : OrderRec) : List String :=
  (o.items.map (fun it => it.product)).dedup

/-- An order is evaluated (not skipped) when its user is known, it has
ordered items, and the recommender returns something for its user. -/
def keepOrder (known : String → Bool) (recFn : String → List String) (o : OrderRec) : Bool :=
  known o.userId && !(actualItems o).isEmpty && !(recFn o.userId).isEmpty

/-- `len(relevant) / len(recommended)`. -/
def precisionOf (recFn : String → List String) (o : OrderRec) : ℚ :=
  (((actualItems o).filter (fun a => decide (a ∈ recFn o.userId))).length : ℚ) /
    ((recFn o.userId).length : ℚ)

/-- `len(relevant) / len(actual_items)`. -/
def recallOf (recFn : String → List String) (o : OrderRec) : ℚ :=
  (((actualItems o).filter (fun a => decide (a ∈ recFn o.userId))).length : ℚ) /
    ((actualItems o).length : ℚ)

/-- The evaluation loop: accumulate per-order precisions and recalls,
skipping via `continue` exactly the orders `keepOrder` rejects. -/
def evalOrders (known : String → Bool) (recFn : String → List String) :
    List OrderRec → List ℚ × List ℚ
  | [] => ([], [])
  | o :: rest =>
    if known o.userId then
      if !(actualItems o).isEmpty then
        if !(recFn o.userId).isEmpty then
          ((precisionOf recFn o) :: (evalOrders known recFn rest).1,
           (recallOf recFn o) :: (evalOrders known recFn rest).2)
        else evalOrders known recFn rest
      else evalOrders known recFn rest
    else evalOrders known recFn rest

/-- `np.mean(xs) if xs else 0`. -/
def meanQ (l : List ℚ) : ℚ := if l.isEmpty then 0 else l.sum / (l.length : ℚ)

/-- `evaluate`: zero metrics when the model is not ready, else the most
recent 20% of orders (at least one), synthetic orders excluded unless that
leaves none, then the mean precision/recall over the evaluated orders and
`f1 = 2PR/(P+R)` (0 when `P+R = 0`). -/
def evaluateCF (ready : Bool) (allOrders : List OrderRec) (known : String → Bool)
    (recFn : String → List String) : ℚ × ℚ × ℚ :=
  if !ready then (0, 0, 0)
  else
    let testOrders := allOrders.take (max 1 (allOrders.length / 5))
    let realT := testOrders.filter (fun o => !o.synthetic)
    let realOrders := if realT.isEmpty then testOrders else realT
    let p := meanQ (evalOrders known recFn realOrders).1
    let r := meanQ (evalOrders known recFn realOrders).2
    (p, r, if 0 < p + r then 2 * (p * r) / (p + r) else 0)

/-- The orders evaluate actually scores: the kept part of the deduplicated
test slice. -/
def evaluatedOrders (allOrders : List OrderRec) (known : String → Bool)
    (recFn : String → List String) : List OrderRec :=
  let testOrders := allOrders.take (max 1 (allOrders.length / 5))
  let realT := testOrders.filter (fun o => !o.synthetic)
  (if realT.isEmpty then testOrders else realT).filter (keepOrder known recFn)

theorem evalOrders_eq (known : String → Bool) (recFn : String → List String)
    (l : List OrderRec) :
    evalOrders known recFn l =
      ((l.filter (keepOrder known recFn)).map (precisionOf recFn),
       (l.filter (keepOrder known recFn)).map (recallOf recFn)) := by
  induction l with
  | nil => rfl
  | cons o rest ih =>
    rw [evalOrders]
    by_cases h1 : known o.userId = true
    · by_cases h2 : (!(actualItems o).isEmpty) = true
      · by_cases h3 : (!(recFn o.userId).isEmpty) = true
        · have hk : keepOrder known recFn o = true := by
            rw [keepOrder, h1, h2, h3]; rfl
          rw [if_pos h1, if_pos h2, if_pos h3, ih, List.filter_cons_of_pos hk,
            List.map_cons, List.map_cons]
        · have hk : keepOrder known recFn o = false := by
            rw [keepOrder, h1, h2]
            simp only [Bool.not_eq_true] at h3 ⊢
            simpa using h3
          rw [if_pos h1, if_pos h2, if_neg h3, ih, List.filter_cons_of_neg (by rw [hk]; simp)]
      · have hk : keepOrder known recFn o = false := by
          rw [keepOrder, h1]
          simp only [Bool.not_eq_true] at h2 ⊢
          simp [h2]
        rw [if_pos h1, if_neg h2, ih, List.filter_cons_of_neg (by rw [hk]; simp)]
    · have hk : keepOrder known recFn o = false := by
        rw [keepOrder]
        simp only [Bool.not_eq_true] at h1
        simp [h1]
      rw [if_neg h1, ih, List.filter_cons_of_neg (by rw [hk]; simp)]

/-- C8: `evaluate` is total (the embedded never-raise behaviour); an unready
model returns exactly (0,0,0); otherwise precision and recall are the
arithmetic means over the evaluated orders — orders with an unknown user, no
recoverable items, or an empty recommendation list are skipped, not counted
as zero — `f1 = 2PR/(P+R)` or 0 when `P+R = 0`, and an empty evaluated set
yields exactly (0,0,0). -/
theorem claim8_ok (allOrders : List OrderRec) (known : String → Bool)
    (recFn : String → List String) :
    evaluateCF false allOrders known recFn = (0, 0, 0) ∧
    evaluateCF true allOrders known recFn =
      (meanQ ((evaluatedOrders allOrders known recFn).map (precisionOf recFn)),
       meanQ ((evaluatedOrders allOrders known recFn).map (recallOf recFn)),
       if 0 < meanQ ((evaluatedOrders allOrders known recFn).map (precisionOf recFn)) +
           meanQ ((evaluatedOrders allOrders known recFn).map (recallOf recFn))
       then 2 * (meanQ ((evaluatedOrders allOrders known recFn).map (precisionOf recFn)) *
           meanQ ((evaluatedOrders allOrders known recFn).map (recallOf recFn))) /
         (meanQ ((evaluatedOrders allOrders known recFn).map (precisionOf recFn)) +
           meanQ ((evaluatedOrders allOrders known recFn).map (recallOf recFn)))
       else 0) ∧
    (∀ l : List ℚ, l ≠ [] → meanQ l = l.sum / (l.length : ℚ)) ∧
    (evaluatedOrders allOrders known recFn = [] →
      evaluateCF true allOrders known recFn = (0, 0, 0)) := by
  have h2 : evaluateCF true allOrders known recFn =
      (meanQ ((evaluatedOrders allOrders known recFn).map (precisionOf recFn)),
       meanQ ((evaluatedOrders allOrders known recFn).map (recallOf recFn)),
       if 0 < meanQ ((evaluatedOrders allOrders known recFn).map (precisionOf recFn)) +
           meanQ ((evaluatedOrders allOrders known recFn).map (recallOf recFn))
       then 2 * (meanQ ((evaluatedOrders allOrders known recFn).map (precisionOf recFn)) *
           meanQ ((evaluatedOrders allOrders known recFn).map (recallOf recFn))) /
         (meanQ ((evaluatedOrders allOrders known recFn).map (precisionOf recFn)) +
           meanQ ((evaluatedOrders allOrders known recFn).map (recallOf recFn)))
       else 0) := by
    simp only [evaluateCF, evaluatedOrders, evalOrders_eq]
    rw [if_neg (by decide)]
  refine ⟨rfl, h2, ?_, ?_⟩
  · intro l hl
    rw [meanQ, if_neg (by simpa [List.isEmpty_iff] using hl)]
  · intro hnil
    rw [h2, hnil]
    norm_num [meanQ]

/-- C8 witness: a ready model over one order whose items are exactly the
recommendations evaluates to precision = recall = f1 = 1. -/
theorem claim8_witness :
    evaluateCF true [⟨"u", [⟨"p", 1⟩], false⟩] (fun _ => true) (fun _ => ["p"]) =
      (1, 1, 1) := by
  have h := (claim8_ok [⟨"u", [⟨"p", 1⟩], false⟩] (fun _ => true) (fun _ => ["p"])).2.1
  rw [h]
  have hev : evaluatedOrders [⟨"u", [⟨"p", 1⟩], false⟩] (fun _ => true) (fun _ => ["p"]) =
      [⟨"u", [⟨"p", 1⟩], false⟩] := by decide
  rw [hev]
  have hpr : precisionOf (fun _ => ["p"]) ⟨"u", [⟨"p", 1⟩], false⟩ = 1 := by
    rw [precisionOf]
    norm_num [actualItems]
  have hre : recallOf (fun _ => ["p"]) ⟨"u", [⟨"p", 1⟩], false⟩ = 1 := by
    rw [recallOf]
    norm_num [actualItems]
  rw [List.map_cons, List.map_cons, hpr, hre]
  norm_num [meanQ]

end RCM

